import Mathlib

/-!
Verification development for the PerformanceSuite repository.

The definitions below are a shallow embedding of the Python sources:
  * `src/midi_generation/midi_generator.py`   (MIDI note scheduler)
  * `src/agent_system/session_manager.py`     (musical clock / context)
  * `src/agent_system/bandmate_agent.py`      (bandmate agent framework)
  * `src/animation_control/animation_controller.py` (protocol translator)
  * `src/audio_analysis/analyzer.py`          (feature extractor)

Python floats are embedded as rationals (`ℚ`), Python dicts as
insertion-ordered association lists (faithful to CPython 3.7+ dict
semantics), and Python exceptions as an explicit error value.  External
library calls (mido sends, librosa, scipy, numpy sqrt) are modelled as
oracle parameters: the theorems quantify over every possible behaviour of
those libraries.
-/

namespace PerformanceSuite

/-- Python exception values that the embedded code can raise. -/
inductive PyErr where
  | indexError
  | runtimeError
  | generic
  deriving Repr, DecidableEq

/-! ### Insertion-ordered dictionaries (CPython `dict` semantics) -/

/-- `dict.get(k)` / `d[k]` lookup on an insertion-ordered association list. -/
def dictGet {α β : Type} [DecidableEq α] (d : List (α × β)) (k : α) : Option β :=
  match d with
  | [] => none
  | (k', v) :: rest => if k' = k then some v else dictGet rest k

/-- `d[k] = v`: update in place if the key exists (keeping its position),
otherwise append at the end — exactly CPython dict assignment. -/
def dictSet {α β : Type} [DecidableEq α] (d : List (α × β)) (k : α) (v : β) :
    List (α × β) :=
  match d with
  | [] => [(k, v)]
  | (k', v') :: rest =>
      if k' = k then (k, v) :: rest else (k', v') :: dictSet rest k v

/-- `del d[k]`: remove the binding for `k` (if present). -/
def dictDel {α β : Type} [DecidableEq α] (d : List (α × β)) (k : α) : List (α × β) :=
  match d with
  | [] => []
  | (k', v') :: rest =>
      if k' = k then rest else (k', v') :: dictDel rest k

/-! ### Numeric helpers -/

/-- Rational remainder: `a mod b` in exact arithmetic,
`qmod a b = a - b * ⌊a / b⌋`. -/
def qmod (a b : ℚ) : ℚ := a - b * ⌊a / b⌋

/-- Python 3 `round` on an exact rational: round-half-to-even. -/
def pyRound (q : ℚ) : ℤ :=
  let n := ⌊q⌋
  let r := q - n
  if r < 1/2 then n
  else if 1/2 < r then n + 1
  else if n % 2 = 0 then n else n + 1

/-! ### MIDI note scheduler (`midi_generation/midi_generator.py`) -/

namespace Midi

/-- A note dictionary as produced by a bandmate agent.  `process_notes`
reads each field with `note.get(key, default)`, so fields are optional. -/
structure Note where
  pitch : Option ℕ := none
  velocity : Option ℕ := none
  duration : Option ℚ := none
  channel : Option ℕ := none
  deriving Repr, DecidableEq

/-- A MIDI message sent on the output port. -/
inductive MidiMsg where
  | note_on (note velocity channel : ℕ)
  | note_off (note channel : ℕ)
  deriving Repr, DecidableEq

/-- One pending entry of `self._note_off_queue`
(a `ScheduledNoteOff`: absolute due time, note, channel). -/
structure NoteOff where
  time : ℚ
  note : ℕ
  channel : ℕ
  deriving Repr, DecidableEq

/-- The state of a `MidiGenerator`: whether the output port opened,
the `active_notes` nested dict `{channel: {note: velocity}}`, the
note-off queue, and the log of messages sent so far.  Sends on an open
port are assumed to succeed (the nominal behaviour of `mido`). -/
structure MidiState where
  portOpen : Bool
  active_notes : List (ℕ × List (ℕ × ℕ))
  note_off_queue : List NoteOff
  sent : List MidiMsg
  deriving Repr, DecidableEq

/-- A freshly constructed `MidiGenerator` (empty tracking state). -/
def mkMidiGenerator (portOpen : Bool) : MidiState :=
  { portOpen := portOpen, active_notes := [], note_off_queue := [], sent := [] }

/-- `MidiGenerator.send_note_on`: no-op without a port; otherwise send the
message and record the note in `active_notes`. -/
def send_note_on (s : MidiState) (note velocity channel : ℕ) : MidiState :=
  if ¬s.portOpen then s
  else
    let inner := (dictGet s.active_notes channel).getD []
    { s with
      sent := s.sent ++ [MidiMsg.note_on note velocity channel],
      active_notes := dictSet s.active_notes channel (dictSet inner note velocity) }

/-- `MidiGenerator.send_note_off`: no-op without a port; otherwise send the
message and delete the note from `active_notes` when it is tracked. -/
def send_note_off (s : MidiState) (note channel : ℕ) : MidiState :=
  if ¬s.portOpen then s
  else
    let s' := { s with sent := s.sent ++ [MidiMsg.note_off note channel] }
    match dictGet s'.active_notes channel with
    | none => s'
    | some inner =>
        match dictGet inner note with
        | none => s'
        | some _ =>
            { s' with active_notes := dictSet s'.active_notes channel (dictDel inner note) }

/-- `MidiGenerator.schedule_note_off`: append `{time: now+delay, note, channel}`
to the note-off queue (unconditionally — there is no port check and no
deduplication in the source). -/
def schedule_note_off (s : MidiState) (note channel : ℕ) (delay now : ℚ) : MidiState :=
  { s with note_off_queue := s.note_off_queue ++ [⟨now + delay, note, channel⟩] }

/-- `MidiGenerator.process_notes`: for each note dict send a note-on
immediately and schedule one note-off after its duration, using the
source defaults `pitch=60`, `velocity=64`, `duration=0.5`, `channel=0`. -/
def process_notes (s : MidiState) (notes : List Note) (now : ℚ) : MidiState :=
  match notes with
  | [] => s
  | n :: rest =>
      let pitch := n.pitch.getD 60
      let velocity := n.velocity.getD 64
      let duration := n.duration.getD (1/2)
      let channel := n.channel.getD 0
      let s1 := send_note_on s pitch velocity channel
      let s2 := schedule_note_off s1 pitch channel duration now
      process_notes s2 rest now

/-- Number of pending `ScheduledNoteOff` entries for a given
(pitch, channel) pair. -/
def countPending (q : List NoteOff) (pitch channel : ℕ) : ℕ :=
  (q.filter (fun e => e.note = pitch ∧ e.channel = channel)).length

/-- Inner loop of `MidiGenerator.all_notes_off` over one channel's live
note dict.  CPython raises `RuntimeError: dictionary changed size during
iteration` at the key iterator's next step after `send_note_off` deletes
the key, so a nonempty inner dict sends exactly one note-off (for its
first key) and then raises. -/
def allNotesOffChannel (s : MidiState) (channel : ℕ) : MidiState × Option PyErr :=
  match (dictGet s.active_notes channel).getD [] with
  | [] => (s, none)
  | (note, _) :: _ => (send_note_off s note channel, some PyErr.runtimeError)

/-- Outer loop of `all_notes_off` over the channels of `active_notes`. -/
def allNotesOffGo (s : MidiState) : List ℕ → MidiState × Option PyErr
  | [] => ({ s with active_notes := [] }, none)
  | ch :: rest =>
      match allNotesOffChannel s ch with
      | (s', none) => allNotesOffGo s' rest
      | (s', some e) => (s', some e)

/-- `MidiGenerator.all_notes_off`: returns early when no port is open;
otherwise iterates the live `active_notes` dicts sending note-offs, and
finally assigns `active_notes = {}` — but only if no exception escaped.
The returned `Option PyErr` is the exception (if any) propagating out of
the call; the state records the mutations performed before it was raised. -/
def all_notes_off (s : MidiState) : MidiState × Option PyErr :=
  if ¬s.portOpen then (s, none)
  else allNotesOffGo s (s.active_notes.map Prod.fst)

/-- Sample agent note used in concrete runs. -/
def noteA : Note :=
  { pitch := some 60, velocity := some 100, duration := some (1/2), channel := some 0 }

/-- Second sample note (different pitch). -/
def noteB : Note :=
  { pitch := some 64, velocity := some 90, duration := some (1/2), channel := some 0 }

end Midi

/-! ### Musical clock / context (`agent_system/session_manager.py`)
and the bandmate-agent contract (`agent_system/bandmate_agent.py`) -/

namespace Session

/-- The typed view of `MusicalContext` as initialised in `__init__`
(the program keeps each attribute at its initial type).  The Python
attribute `section` is called `sectionLabel` here because `section` is a
Lean keyword. -/
structure MusicalContext where
  tempo : ℚ
  key : String
  chord : String
  chord_progression : List String
  dynamics : ℚ
  sectionLabel : String
  beat_position : ℚ
  bar_position : ℤ
  time_signature : ℕ × ℕ
  is_playing : Bool
  deriving Repr, DecidableEq

/-- `MusicalContext.__init__` defaults. -/
def initContext : MusicalContext :=
  { tempo := 120, key := "C", chord := "C", chord_progression := ["C"],
    dynamics := 1/2, sectionLabel := "verse", beat_position := 0,
    bar_position := 1, time_signature := (4, 4), is_playing := false }

/-- A queued `ControlCommand` dict: its `type` tag plus the optional
payload read with `command.get(key, default)`.  A dict whose `type`
matches no branch of `process_control_commands` is `unknown`. -/
inductive Cmd where
  | section_change (s : Option String)
  | tempo_change (t : Option ℚ)
  | key_change (k : Option String)
  | start
  | stop
  | unknown
  deriving Repr, DecidableEq

/-- One branch of `SessionManager.process_control_commands`, including the
source's `command.get(...)` defaults. -/
def applyCmd (ctx : MusicalContext) : Cmd → MusicalContext
  | .section_change s => { ctx with sectionLabel := s.getD "verse" }
  | .tempo_change t => { ctx with tempo := t.getD ctx.tempo }
  | .key_change k => { ctx with key := k.getD ctx.key }
  | .start => { ctx with is_playing := true }
  | .stop => { ctx with is_playing := false }
  | .unknown => ctx

/-- `SessionManager.process_control_commands`: apply queued commands in
arrival order (the early return for an empty queue has the same effect). -/
def process_control_commands (ctx : MusicalContext) (cmds : List Cmd) : MusicalContext :=
  cmds.foldl applyCmd ctx

/-- The beat/bar advancement step of `SessionManager.update_cycle`:
add `(tempo/60)/update_rate` beats and wrap (once) into the next bar when
`beat_position >= beats_per_bar`. -/
def advanceBeat (ctx : MusicalContext) (update_rate : ℚ) : MusicalContext :=
  let beats_per_second := ctx.tempo / 60
  let beat_increment := beats_per_second / update_rate
  let b := ctx.beat_position + beat_increment
  let beats_per_bar : ℚ := ctx.time_signature.1
  if beats_per_bar ≤ b then
    { ctx with beat_position := b - beats_per_bar, bar_position := ctx.bar_position + 1 }
  else
    { ctx with beat_position := b }

/-- `BandmateAgent._should_generate_notes` (base class): fire within
±0.05 beats of an integral beat, using Python's banker rounding.
(`self.context` has just been assigned, so the `not self.context` early
return cannot trigger here.) -/
def should_generate_notes (ctx : MusicalContext) : Bool :=
  |((pyRound ctx.beat_position : ℤ) : ℚ) - ctx.beat_position| < 1/20

/-- A bandmate agent following the base-class contract: an activity flag
and a `generate_notes` implementation. -/
structure Agent where
  is_active : Bool
  gen : MusicalContext → List Midi.Note

/-- `BandmateAgent.on_context_update`: store the context, and emit
`generate_notes()` to the listeners only when active, playing, and on a
beat boundary.  Returns the notes pushed to the note listeners. -/
def on_context_update (a : Agent) (ctx : MusicalContext) : List Midi.Note :=
  if a.is_active ∧ ctx.is_playing ∧ should_generate_notes ctx then a.gen ctx else []

/-- The `SessionManager` state touched by `update_cycle`: the shared
context, the queued control commands, the update rate, and the registered
agents. -/
structure SMState where
  update_rate : ℚ
  context : MusicalContext
  control_commands : List Cmd
  agents : List Agent

/-- `SessionManager.update_cycle`: drain and apply control commands,
advance beat/bar when playing, then notify every agent (collecting all
notes they emit to their listeners). -/
def update_cycle (s : SMState) : SMState × List Midi.Note :=
  let ctx1 := process_control_commands s.context s.control_commands
  let ctx2 := if ctx1.is_playing then advanceBeat ctx1 s.update_rate else ctx1
  let notes := s.agents.foldl (fun acc a => acc ++ on_context_update a ctx2) []
  ({ s with context := ctx2, control_commands := [] }, notes)

/-- `n` consecutive update cycles (final state only). -/
def run_cycles : ℕ → SMState → SMState
  | 0, s => s
  | n + 1, s => run_cycles n (update_cycle s).1

/-- `n` consecutive update cycles, collecting the notes emitted per cycle. -/
def run_trace : ℕ → SMState → SMState × List (List Midi.Note)
  | 0, s => (s, [])
  | n + 1, s =>
      let p := update_cycle s
      let q := run_trace n p.1
      (q.1, p.2 :: q.2)

/-- A clock-only session: tempo `T`, update rate `R`, `bpb` beats per bar,
playing from beat 0 of bar 1, no queued commands, no agents. -/
def mkClockState (T R : ℚ) (bpb : ℕ) : SMState :=
  { update_rate := R,
    context :=
      { initContext with
        tempo := T
        is_playing := true
        time_signature := (bpb, 4) },
    control_commands := [],
    agents := [] }

/-- A demonstration agent that always emits one fixed note. -/
def demoAgent : Agent := { is_active := true, gen := fun _ => [Midi.noteA] }

end Session

/-! ### Attribute-level view of `MusicalContext` for `MusicalContext.update`
(`session_manager.py` lines 34–43): a Python object is its `__dict__`,
an insertion-ordered map from attribute names to values. -/

/-- A dynamically typed Python attribute value (the types occurring in
`MusicalContext.__init__`). -/
inductive PyVal where
  | num (q : ℚ)
  | int (z : ℤ)
  | str (s : String)
  | strList (l : List String)
  | natPair (p : ℕ × ℕ)
  | bool (b : Bool)
  deriving Repr, DecidableEq

/-- An object's `__dict__`. -/
def Obj : Type := List (String × PyVal)

/-- `hasattr(self, key)`. -/
def hasattr (o : Obj) (k : String) : Bool :=
  (dictGet o k).isSome

/-- The `__dict__` of a freshly initialised `MusicalContext`. -/
def initMusicalContextObj : Obj :=
  [("tempo", PyVal.num 120), ("key", PyVal.str "C"), ("chord", PyVal.str "C"),
   ("chord_progression", PyVal.strList ["C"]), ("dynamics", PyVal.num (1/2)),
   ("section", PyVal.str "verse"), ("beat_position", PyVal.num 0),
   ("bar_position", PyVal.int 1), ("time_signature", PyVal.natPair (4, 4)),
   ("is_playing", PyVal.bool false)]

/-- `MusicalContext.update(**kwargs)`: for each keyword in order,
`setattr` only when `hasattr(self, key)`; unknown names are skipped. -/
def MusicalContext_update (o : Obj) : List (String × PyVal) → Obj
  | [] => o
  | (k, v) :: rest =>
      MusicalContext_update (if hasattr o k then dictSet o k v else o) rest

/-! ### Protocol translator (`animation_control/animation_controller.py`)

The `agents` sub-dict of `animation_state` is touched only by
`agent_note_event`, which none of the claims concerns, so it is not
carried in the state here. -/

namespace Anim

/-- The payload of one outbound message. -/
inductive Payload where
  | num (q : ℚ)
  | str (s : String)
  | beatKV (beat : ℚ) (bar : ℤ)
  deriving Repr, DecidableEq

/-- The tracked last-known values in `self.animation_state`. -/
structure AnimationState where
  tempo : ℚ
  intensity : ℚ
  sectionLabel : String
  deriving Repr, DecidableEq

/-- An `AnimationController`: whether the OSC client initialised, the
tracked state, and the log of `(address, payload)` messages sent. -/
structure AnimCtrl where
  oscConnected : Bool
  animation_state : AnimationState
  sent : List (String × Payload)
  deriving Repr, DecidableEq

/-- `AnimationController.__init__` (OSC protocol): default state
`tempo=120.0, intensity=0.5, section="verse"`. -/
def mkAnimationController (connected : Bool) : AnimCtrl :=
  { oscConnected := connected,
    animation_state := { tempo := 120, intensity := 1/2, sectionLabel := "verse" },
    sent := [] }

/-- `AnimationController.send_command`: sends over OSC when the client is
up, silently does nothing otherwise. -/
def send_command (c : AnimCtrl) (addr : String) (p : Payload) : AnimCtrl :=
  if c.oscConnected then { c with sent := c.sent ++ [(addr, p)] } else c

/-- `AnimationController.update_tempo`. -/
def update_tempo (c : AnimCtrl) (tempo : ℚ) : AnimCtrl :=
  send_command
    { c with animation_state := { c.animation_state with tempo := tempo } }
    "/tempo" (Payload.num tempo)

/-- `AnimationController.update_intensity`. -/
def update_intensity (c : AnimCtrl) (intensity : ℚ) : AnimCtrl :=
  send_command
    { c with animation_state := { c.animation_state with intensity := intensity } }
    "/intensity" (Payload.num intensity)

/-- `AnimationController.update_section`. -/
def update_section (c : AnimCtrl) (sec : String) : AnimCtrl :=
  send_command
    { c with animation_state := { c.animation_state with sectionLabel := sec } }
    "/section" (Payload.str sec)

/-- `AnimationController.update_beat_position`: a `/beat` message every
call, plus `/beat/strong` when the beat is within 0.05 of the hard-coded
positions 0.0 or 2.0. -/
def update_beat_position (c : AnimCtrl) (beat : ℚ) (bar : ℤ) : AnimCtrl :=
  let c1 := send_command c "/beat" (Payload.beatKV beat bar)
  if |beat - 0| < 1/20 ∨ |beat - 2| < 1/20 then
    send_command c1 "/beat/strong" (Payload.beatKV beat bar)
  else c1

/-- A musical-context dictionary as received by
`update_from_musical_context`; the `in` checks make every key optional. -/
structure CtxDict where
  tempo : Option ℚ := none
  sectionLabel : Option String := none
  beat_position : Option ℚ := none
  bar_position : Option ℤ := none
  dynamics : Option ℚ := none
  deriving Repr, DecidableEq

/-- First block of `update_from_musical_context`:
"Update tempo if changed". -/
def ufmcTempoStage (c : AnimCtrl) (d : CtxDict) : AnimCtrl :=
  match d.tempo with
  | some t => if t ≠ c.animation_state.tempo then update_tempo c t else c
  | none => c

/-- Second block of `update_from_musical_context`:
"Update section if changed". -/
def ufmcSectionStage (c : AnimCtrl) (d : CtxDict) : AnimCtrl :=
  match d.sectionLabel with
  | some sec =>
      if sec ≠ c.animation_state.sectionLabel then update_section c sec else c
  | none => c

/-- Third block of `update_from_musical_context`:
"Update beat position". -/
def ufmcBeatStage (c : AnimCtrl) (d : CtxDict) : AnimCtrl :=
  match d.beat_position, d.bar_position with
  | some b, some br => update_beat_position c b br
  | _, _ => c

/-- Fourth block of `update_from_musical_context`:
"Update intensity based on dynamics". -/
def ufmcIntensityStage (c : AnimCtrl) (d : CtxDict) : AnimCtrl :=
  match d.dynamics with
  | some dyn => update_intensity c dyn
  | none => c

/-- `AnimationController.update_from_musical_context`: tempo and section
are sent only when different from the tracked value; the beat pair is
forwarded whenever present; dynamics is forwarded as intensity whenever
present (with no change check in the source). -/
def update_from_musical_context (c : AnimCtrl) (d : CtxDict) : AnimCtrl :=
  ufmcIntensityStage (ufmcBeatStage (ufmcSectionStage (ufmcTempoStage c d) d) d) d

/-- The messages emitted by one `update_from_musical_context` call
(the suffix the call appended to the send log). -/
def emittedMsgs (c : AnimCtrl) (d : CtxDict) : List (String × Payload) :=
  ((update_from_musical_context c d).sent).drop c.sent.length

/-- Specification of the tempo messages of one call. -/
def tempoMsgs (c : AnimCtrl) (d : CtxDict) : List (String × Payload) :=
  if c.oscConnected then
    match d.tempo with
    | some t =>
        if t ≠ c.animation_state.tempo then [("/tempo", Payload.num t)] else []
    | none => []
  else []

/-- Specification of the section messages of one call. -/
def sectionMsgs (c : AnimCtrl) (d : CtxDict) : List (String × Payload) :=
  if c.oscConnected then
    match d.sectionLabel with
    | some sec =>
        if sec ≠ c.animation_state.sectionLabel then [("/section", Payload.str sec)]
        else []
    | none => []
  else []

/-- Specification of the beat messages of one call. -/
def beatMsgs (c : AnimCtrl) (d : CtxDict) : List (String × Payload) :=
  if c.oscConnected then
    match d.beat_position, d.bar_position with
    | some b, some br =>
        ("/beat", Payload.beatKV b br) ::
          (if |b - 0| < 1/20 ∨ |b - 2| < 1/20
           then [("/beat/strong", Payload.beatKV b br)] else [])
    | _, _ => []
  else []

/-- Specification of the intensity messages of one call. -/
def intensityMsgs (c : AnimCtrl) (d : CtxDict) : List (String × Payload) :=
  if c.oscConnected then
    match d.dynamics with
    | some dyn => [("/intensity", Payload.num dyn)]
    | none => []
  else []

end Anim

/-! ### Feature extractor (`audio_analysis/analyzer.py`)

Frames are mono sample lists over `ℚ` (the stereo branch of
`analyze_frame` averages to mono before any claim-relevant code runs).
The librosa / scipy / numpy-sqrt calls are modelled as an oracle record
`Ext`; each call either returns a value or raises, and the theorems
quantify over every oracle. -/

namespace Audio

/-- Mean of a rational list (`np.mean`; 0 on the empty list). -/
def meanQ (l : List ℚ) : ℚ := l.sum / l.length

/-- `np.max` of a list (meaningful on nonempty input). -/
def maxQ : List ℚ → ℚ
  | [] => 0
  | x :: xs => xs.foldl max x

/-- `np.argmax`: index and value of the first maximal element. -/
def argmaxP : List ℚ → Option (ℕ × ℚ)
  | [] => none
  | x :: xs =>
      match argmaxP xs with
      | none => some (0, x)
      | some (j, m) => if x < m then some (j + 1, m) else some (0, x)

/-- `deque(maxlen=n)` append: push right, drop from the left beyond `n`. -/
def pushMax {α : Type} (n : ℕ) (xs : List α) (x : α) : List α :=
  let ys := xs ++ [x]
  if n < ys.length then ys.drop (ys.length - n) else ys

/-- `np.linspace a b n`. -/
def linspaceQ (a b : ℚ) : ℕ → List ℚ
  | 0 => []
  | 1 => [a]
  | n + 2 => (List.range (n + 2)).map (fun i => a + i * (b - a) / (n + 1))

/-- `l[i]` with `IndexError` on out-of-range. -/
def listGetQ (l : List ℚ) (i : ℕ) : Except PyErr ℚ :=
  match l.get? i with
  | some v => Except.ok v
  | none => Except.error PyErr.indexError

/-- Fancy indexing `l[idxs]`. -/
def listGetAll (l : List ℚ) (idxs : List ℕ) : Except PyErr (List ℚ) :=
  idxs.mapM (listGetQ l)

/-- The external numeric routines used by the analyzer, as oracles. -/
structure Ext where
  onset_strength : List ℚ → Except PyErr (List ℚ)
  tempo_dist : List ℚ → Except PyErr (List ℚ)
  tempo_agg : List ℚ → Except PyErr ℚ
  find_peaks : List ℚ → List ℕ
  piptrack : List ℚ → Except PyErr (List ℚ × List ℚ)
  hz_to_note : ℚ → Except PyErr String
  chroma_cqt : List ℚ → Except PyErr (List (List ℚ))
  mfcc : List ℚ → Except PyErr (List (List ℚ))
  spectral_centroid : List ℚ → Except PyErr (List ℚ)
  spectral_contrast : List ℚ → Except PyErr (List (List ℚ))
  sqrtQ : ℚ → ℚ

/-- The analyzer's mutable history state. -/
structure AnalyzerState where
  tempo_history : List ℚ
  onset_env_history : List (List ℚ)
  pitch_history : List ℚ
  pitch_confidence_history : List ℚ
  chroma_history : List (List (List ℚ))
  current_tempo : Option ℚ
  current_chords : List String
  current_dynamics : ℚ

/-- `AudioAnalyzer.__init__` state. -/
def initAnalyzerState : AnalyzerState :=
  { tempo_history := [], onset_env_history := [], pitch_history := [],
    pitch_confidence_history := [], chroma_history := [],
    current_tempo := none, current_chords := [], current_dynamics := 0 }

/-- Result of `_estimate_tempo`. -/
structure TempoResult where
  tempo : ℚ
  confidence : ℚ
  deriving Repr, DecidableEq

/-- Result of `_extract_pitch`. -/
structure PitchResult where
  pitch : Option ℚ
  confidence : ℚ
  note : Option String
  deriving Repr, DecidableEq

/-- Result of `_extract_chords`. -/
structure ChordsResult where
  chords : List String
  confidence : ℚ
  deriving Repr, DecidableEq

/-- Result of `_extract_dynamics`. -/
structure DynamicsResult where
  value : ℚ
  peak : ℚ
  rms : ℚ
  deriving Repr, DecidableEq

/-- Result of `_extract_timbre`. -/
structure TimbreResult where
  mfcc : List ℚ
  spectral_centroid : ℚ
  spectral_contrast : List ℚ
  deriving Repr, DecidableEq

/-- The combined feature dict returned by `analyze_frame`. -/
structure FeatureSnapshot where
  tempo : TempoResult
  pitch : PitchResult
  chords : ChordsResult
  dynamics : DynamicsResult
  timbre : TimbreResult
  deriving Repr, DecidableEq

/-- `AudioAnalyzer._apply_pre_emphasis`:
`np.append(frame[0], frame[1:] - coef * frame[:-1])`; indexing `frame[0]`
raises `IndexError` on the empty frame. -/
def apply_pre_emphasis (coef : ℚ) : List ℚ → Except PyErr (List ℚ)
  | [] => Except.error PyErr.indexError
  | x :: xs => Except.ok (x :: List.zipWith (fun a b => a - coef * b) xs (x :: xs))

/-- `AudioAnalyzer._get_tempo_from_onset_env`. -/
def get_tempo_from_onset_env (ext : Ext) (env : List ℚ) : Except PyErr (ℚ × ℚ) :=
  match ext.tempo_dist env with
  | Except.error e => Except.error e
  | Except.ok dist =>
      let peaks := ext.find_peaks dist
      if peaks.isEmpty then Except.ok (120, 0)
      else
        match listGetAll dist peaks with
        | Except.error e => Except.error e
        | Except.ok vals =>
            match argmaxP vals with
            | none => Except.error PyErr.generic
            | some (j, _) =>
                match peaks.get? j with
                | none => Except.error PyErr.indexError
                | some max_peak_idx =>
                    match listGetQ dist max_peak_idx with
                    | Except.error e => Except.error e
                    | Except.ok max_peak_value =>
                        let conf := if 0 < dist.sum then max_peak_value / dist.sum
                                    else 0
                        match ext.tempo_agg env with
                        | Except.error e => Except.error e
                        | Except.ok t => Except.ok (t, conf)

/-- `AudioAnalyzer._estimate_tempo`. -/
def estimate_tempo (ext : Ext) (hop : ℕ) (st : AnalyzerState) (frame : List ℚ) :
    TempoResult × AnalyzerState :=
  if frame.length < hop then (⟨120, 0⟩, st)
  else
    match ext.onset_strength frame with
    | Except.error _ => (⟨120, 0⟩, st)
    | Except.ok env =>
        let st1 := { st with onset_env_history := pushMax 3 st.onset_env_history env }
        if 2 ≤ st1.onset_env_history.length then
          match get_tempo_from_onset_env ext st1.onset_env_history.join with
          | Except.error _ => (⟨120, 0⟩, st1)
          | Except.ok (tempo, conf) =>
              let st2 := { st1 with tempo_history := pushMax 10 st1.tempo_history tempo }
              let weights := linspaceQ (1/2) 1 st2.tempo_history.length
              let smoothed :=
                (List.zipWith (· * ·) st2.tempo_history weights).sum / weights.sum
              (⟨smoothed, conf⟩, st2)
        else (⟨120, 0⟩, st1)

/-- `AudioAnalyzer._extract_pitch`.  (After the append, `pitch_history` is
nonempty, so the source's `len(self.pitch_history) > 0` test is vacuous.) -/
def extract_pitch (ext : Ext) (hop : ℕ) (st : AnalyzerState) (frame : List ℚ) :
    PitchResult × AnalyzerState :=
  if frame.length < hop then (⟨none, 0, none⟩, st)
  else
    match ext.piptrack frame with
    | Except.error _ => (⟨none, 0, none⟩, st)
    | Except.ok (pitches, mags) =>
        match argmaxP mags with
        | none => (⟨none, 0, none⟩, st)
        | some (idx, m) =>
            match pitches.get? idx with
            | none => (⟨none, 0, none⟩, st)
            | some pitch =>
                let conf := if 0 < maxQ mags then m / maxQ mags else 0
                if 0 < pitch then
                  let st1 := { st with
                    pitch_history := pushMax 5 st.pitch_history pitch,
                    pitch_confidence_history :=
                      pushMax 5 st.pitch_confidence_history conf }
                  let weights := st1.pitch_confidence_history
                  if 0 < weights.sum then
                    let smoothed :=
                      (List.zipWith (· * ·) st1.pitch_history weights).sum / weights.sum
                    match ext.hz_to_note smoothed with
                    | Except.error _ => (⟨none, 0, none⟩, st1)
                    | Except.ok nm =>
                        (⟨some smoothed, meanQ st1.pitch_confidence_history, some nm⟩,
                         st1)
                  else (⟨none, 0, none⟩, st1)
                else (⟨none, 0, none⟩, st)

/-- The twelve pitch-class names used for template labels. -/
def noteNames : List String :=
  ["C", "C#", "D", "D#", "E", "F"] ++ ["F#", "G", "G#", "A", "A#", "B"]

/-- One triad template: 1.0 at the root, 0.8 at the given third and at the
perfect fifth. -/
def mkTemplate (root third : ℕ) : List ℚ :=
  (List.range 12).map (fun j =>
    if j = root then 1
    else if j = (root + third) % 12 then 4/5
    else if j = (root + 7) % 12 then 4/5
    else 0)

/-- `_initialize_chord_templates`: 12 major then 12 minor triads. -/
def chord_templates : List (String × List ℚ) :=
  (List.range 12).map (fun i => (noteNames.getD i "", mkTemplate i 4)) ++
  (List.range 12).map (fun i => (noteNames.getD i "" ++ "m", mkTemplate i 3))

/-- `avg_chroma.shape[1]`. -/
def numCols (m : List (List ℚ)) : ℕ := (m.headD []).length

/-- `np.max` over all entries of a matrix. -/
def matMax (m : List (List ℚ)) : ℚ := maxQ (m.map maxQ)

/-- Scale every entry of a matrix. -/
def matScale (c : ℚ) (m : List (List ℚ)) : List (List ℚ) :=
  m.map (List.map (fun x => c * x))

/-- Elementwise matrix addition (history matrices share one shape). -/
def matAdd (a b : List (List ℚ)) : List (List ℚ) :=
  List.zipWith (List.zipWith (· + ·)) a b

/-- `np.mean(np.array(list(history)), axis=0)`. -/
def matMean (ms : List (List (List ℚ))) : List (List ℚ) :=
  match ms with
  | [] => []
  | m :: rest => matScale (1 / (ms.length : ℚ)) (rest.foldl matAdd m)

/-- `np.sum(avg_chroma * template_2d) / avg_chroma.shape[1]` where
`template_2d` tiles the template across the columns: the correlation is
`Σᵢ template[i] · (row i sum) / n_cols`. -/
def corrScore (tmpl : List ℚ) (m : List (List ℚ)) : ℚ :=
  (List.zipWith (fun t row => t * row.sum) tmpl m).sum / (numCols m : ℚ)

/-- Stable insertion for the descending sort (Python `sorted` is stable:
an element goes before the first strictly-smaller score). -/
def insertScore (a : String × ℚ) : List (String × ℚ) → List (String × ℚ)
  | [] => [a]
  | b :: t => if b.2 ≤ a.2 then a :: b :: t else b :: insertScore a t

/-- `sorted(chord_scores.items(), key=score, reverse=True)`. -/
def sortScoresDesc : List (String × ℚ) → List (String × ℚ)
  | [] => []
  | a :: t => insertScore a (sortScoresDesc t)

/-- The `chord_scores` dict (insertion order = template order). -/
def chordScores (m : List (List ℚ)) : List (String × ℚ) :=
  chord_templates.map (fun nt => (nt.1, corrScore nt.2 m))

/-- The `top_chords` local: best three by correlation. -/
def topChords (m : List (List ℚ)) : List (String × ℚ) :=
  (sortScoresDesc (chordScores m)).take 3

/-- The confidence computation on `top_chords`. -/
def chordsConf (tc : List (String × ℚ)) : ℚ :=
  match tc with
  | p0 :: p1 :: _ => if 0 < p0.2 then (p0.2 - p1.2) / p0.2 else 0
  | [_] => 1
  | [] => 0

/-- The chroma-side computation of `_extract_chords` after the history
append: average, normalize, correlate, rank, threshold. -/
def chordsOfHistory (hist : List (List (List ℚ))) : ChordsResult :=
  let avg := matMean hist
  let avg_n := if 0 < matMax avg then matScale (1 / matMax avg) avg else avg
  let tc := topChords avg_n
  ⟨(tc.filter (fun p => 1/2 < p.2)).map Prod.fst, chordsConf tc⟩

/-- `AudioAnalyzer._extract_chords`. -/
def extract_chords (ext : Ext) (hop : ℕ) (st : AnalyzerState) (frame : List ℚ) :
    ChordsResult × AnalyzerState :=
  if frame.length < hop then (⟨[], 0⟩, st)
  else
    match ext.chroma_cqt frame with
    | Except.error _ => (⟨[], 0⟩, st)
    | Except.ok chroma =>
        let st1 := { st with chroma_history := pushMax 3 st.chroma_history chroma }
        (chordsOfHistory st1.chroma_history, st1)

/-- `AudioAnalyzer._extract_dynamics`: peak is the raw maximum absolute
sample (unclamped); the RMS is scaled by 10 and clamped to 1. -/
def extract_dynamics (ext : Ext) (frame : List ℚ) : DynamicsResult :=
  if frame.length = 0 then ⟨0, 0, 0⟩
  else
    let peak := maxQ (frame.map (fun x => |x|))
    let rms := ext.sqrtQ (meanQ (frame.map (fun x => x * x)))
    ⟨min 1 (rms * 10), peak, rms⟩

/-- `AudioAnalyzer._extract_timbre`. -/
def extract_timbre (ext : Ext) (hop : ℕ) (frame : List ℚ) : TimbreResult :=
  if frame.length < hop then ⟨List.replicate 13 0, 0, List.replicate 6 0⟩
  else
    match ext.mfcc frame, ext.spectral_centroid frame, ext.spectral_contrast frame with
    | Except.ok m, Except.ok ce, Except.ok co => ⟨m.map meanQ, meanQ ce, co.map meanQ⟩
    | _, _, _ => ⟨List.replicate 13 0, 0, List.replicate 6 0⟩

/-- `AudioAnalyzer.analyze_frame`: pre-emphasis (which raises on an empty
frame), then the five extractors in source order, then the state mirror
updates. -/
def analyze_frame (ext : Ext) (hop : ℕ) (st : AnalyzerState) (frame : List ℚ) :
    Except PyErr (FeatureSnapshot × AnalyzerState) :=
  match apply_pre_emphasis (97/100) frame with
  | Except.error e => Except.error e
  | Except.ok f =>
      let pr := extract_pitch ext hop st f
      let cr := extract_chords ext hop pr.2 f
      let tr := estimate_tempo ext hop cr.2 f
      let d := extract_dynamics ext f
      let tb := extract_timbre ext hop f
      let st4 := { tr.2 with
        current_tempo := some tr.1.tempo,
        current_chords := if cr.1.chords.isEmpty then tr.2.current_chords
                          else cr.1.chords,
        current_dynamics := d.value }
      Except.ok (⟨tr.1, pr.1, cr.1, d, tb⟩, st4)

/-- Entrywise nonnegativity of a chroma matrix (true of every
`librosa.feature.chroma_cqt` output). -/
def MatNonneg (m : List (List ℚ)) : Prop :=
  ∀ row ∈ m, ∀ x ∈ row, 0 ≤ x

/-- A trivial oracle: every library call fails, `find_peaks` finds
nothing, and the square root is the zero function.  Used to instantiate
oracle-quantified theorems at a concrete input. -/
def extFail : Ext :=
  { onset_strength := fun _ => Except.error PyErr.generic,
    tempo_dist := fun _ => Except.error PyErr.generic,
    tempo_agg := fun _ => Except.error PyErr.generic,
    find_peaks := fun _ => [],
    piptrack := fun _ => Except.error PyErr.generic,
    hz_to_note := fun _ => Except.error PyErr.generic,
    chroma_cqt := fun _ => Except.error PyErr.generic,
    mfcc := fun _ => Except.error PyErr.generic,
    spectral_centroid := fun _ => Except.error PyErr.generic,
    spectral_contrast := fun _ => Except.error PyErr.generic,
    sqrtQ := fun _ => 0 }

/-- A concrete 12×3 chroma matrix: pitch class C at full strength in the
first column, pitch class E at a quarter strength.  Its best template
correlation (C major, 2/5) stays below the 0.5 threshold while the gap to
the second-best (Cm/Am, 1/3) is positive. -/
def cexChroma : List (List ℚ) :=
  [[1, 0, 0], [0, 0, 0], [0, 0, 0], [0, 0, 0], [1/4, 0, 0], [0, 0, 0],
   [0, 0, 0], [0, 0, 0], [0, 0, 0], [0, 0, 0], [0, 0, 0], [0, 0, 0]]

/-- An oracle whose `chroma_cqt` returns `cexChroma` (all other calls
fail). -/
def cexExt : Ext := { extFail with chroma_cqt := fun _ => Except.ok cexChroma }

end Audio

/-! ## Theorems -/

/-! ### Auxiliary lemmas -/

/-- `schedule_note_off` appends exactly one queue entry, so each pending
count changes by one exactly for the scheduled (pitch, channel) pair. -/
theorem Midi.countPending_schedule (s : Midi.MidiState) (p c p' c' : ℕ) (d now : ℚ) :
    Midi.countPending (Midi.schedule_note_off s p c d now).note_off_queue p' c' =
      Midi.countPending s.note_off_queue p' c' + (if p = p' ∧ c = c' then 1 else 0) := by
  simp only [Midi.schedule_note_off, Midi.countPending, List.filter_append,
    List.length_append]
  by_cases h : p = p' ∧ c = c'
  · simp [h]
  · simp only [List.filter, decide_eq_true_eq]
    rw [if_neg h]
    simp [h]

/-- `send_note_on` never touches the note-off queue. -/
theorem Midi.note_off_queue_send_note_on (s : Midi.MidiState) (n v c : ℕ) :
    (Midi.send_note_on s n v c).note_off_queue = s.note_off_queue := by
  unfold Midi.send_note_on
  by_cases h : s.portOpen <;> simp [h]

/-! ### C1: at most one pending note-off per (pitch, channel) -/

/-- C1 (counterexample): processing the same pitch/channel twice before any
note-off fires leaves TWO pending `ScheduledNoteOff` entries for
(60, 0) — and the pair was already in `active_notes` at the second call —
refuting "the number of pending entries never exceeds 1". -/
theorem C1_counterexample :
    let s1 := Midi.process_notes (Midi.mkMidiGenerator true) [Midi.noteA] 0
    let s2 := Midi.process_notes s1 [Midi.noteA] 1
    dictGet ((dictGet s1.active_notes 0).getD []) 60 = some 100 ∧
      Midi.countPending s2.note_off_queue 60 0 = 2 ∧
      ¬ Midi.countPending s2.note_off_queue 60 0 ≤ 1 := by
  decide

/-- C1 (amended): `process_notes` schedules exactly one note-off per
processed note, unconditionally: after any `process_notes` call the pending
count for a (pitch, channel) pair equals the prior count plus the number of
just-processed notes resolving to that pair — so re-triggering an active
pair grows the count beyond 1 instead of being deduplicated. -/
theorem C1_amended (s : Midi.MidiState) (notes : List Midi.Note) (now : ℚ)
    (p c : ℕ) :
    Midi.countPending (Midi.process_notes s notes now).note_off_queue p c =
      Midi.countPending s.note_off_queue p c +
        (notes.filter (fun n => n.pitch.getD 60 = p ∧ n.channel.getD 0 = c)).length := by
  induction notes generalizing s with
  | nil => simp [Midi.process_notes]
  | cons n rest ih =>
      rw [Midi.process_notes, ih]
      rw [Midi.countPending_schedule]
      have hq := Midi.note_off_queue_send_note_on s (n.pitch.getD 60)
        (n.velocity.getD 64) (n.channel.getD 0)
      rw [hq]
      by_cases h : n.pitch.getD 60 = p ∧ n.channel.getD 0 = c
      · simp [h, List.filter]
        omega
      · simp only [List.filter, decide_eq_true_eq]
        rw [if_neg h]
        simp [h]

/-! ### C2: exact beat/bar arithmetic of the clock -/

/-- The rational remainder is nonnegative for a positive modulus. -/
theorem qmod_nonneg (a b : ℚ) (hb : 0 < b) : 0 ≤ qmod a b := by
  unfold qmod
  have h1 : ((⌊a / b⌋ : ℚ)) ≤ a / b := Int.floor_le (a / b)
  have h2 : b * ((⌊a / b⌋ : ℚ)) ≤ b * (a / b) := by
    exact mul_le_mul_of_nonneg_left h1 hb.le
  have h3 : b * (a / b) = a := by field_simp
  linarith

/-- The rational remainder is below a positive modulus. -/
theorem qmod_lt (a b : ℚ) (hb : 0 < b) : qmod a b < b := by
  unfold qmod
  have h1 : a / b < (⌊a / b⌋ : ℚ) + 1 := Int.lt_floor_add_one (a / b)
  have h2 : b * (a / b) < b * ((⌊a / b⌋ : ℚ) + 1) := by
    exact (mul_lt_mul_left hb).mpr h1
  have h3 : b * (a / b) = a := by field_simp
  nlinarith

/-- Uniqueness of the floor of a quotient written as `b * k + r`. -/
theorem floor_div_eq (b : ℚ) (k : ℤ) (r : ℚ) (hb : 0 < b) (h0 : 0 ≤ r)
    (hr : r < b) : ⌊(b * k + r) / b⌋ = k := by
  have hbne : b ≠ 0 := ne_of_gt hb
  have hdiv : (b * k + r) / b = r / b + k := by field_simp; ring
  rw [hdiv, Int.floor_add_int]
  have hz : ⌊r / b⌋ = 0 := by
    rw [Int.floor_eq_zero_iff]
    exact ⟨div_nonneg h0 hb.le, (div_lt_one hb).mpr hr⟩
  rw [hz]; ring

/-- Uniqueness of the rational remainder of `b * k + r`. -/
theorem qmod_eq (b : ℚ) (k : ℤ) (r : ℚ) (hb : 0 < b) (h0 : 0 ≤ r)
    (hr : r < b) : qmod (b * k + r) b = r := by
  unfold qmod
  rw [floor_div_eq b k r hb h0 hr]; ring

/-- One clock step in terms of remainder/floor: adding an increment of at
most one bar either stays in the bar or wraps exactly once. -/
theorem mod_floor_step (x inc b : ℚ) (hb : 0 < b) (h0 : 0 ≤ inc) (h1 : inc ≤ b) :
    (b ≤ qmod x b + inc →
        qmod (x + inc) b = qmod x b + inc - b ∧ ⌊(x + inc) / b⌋ = ⌊x / b⌋ + 1) ∧
    (qmod x b + inc < b →
        qmod (x + inc) b = qmod x b + inc ∧ ⌊(x + inc) / b⌋ = ⌊x / b⌋) := by
  have hx : x = b * ((⌊x / b⌋ : ℤ) : ℚ) + qmod x b := by
    unfold qmod; ring
  have hq0 := qmod_nonneg x b hb
  have hq1 := qmod_lt x b hb
  constructor
  · intro hwrap
    have hr0 : 0 ≤ qmod x b + inc - b := by linarith
    have hr1 : qmod x b + inc - b < b := by linarith
    have hrep : x + inc = b * ((⌊x / b⌋ + 1 : ℤ) : ℚ) + (qmod x b + inc - b) := by
      push_cast
      linear_combination hx
    constructor
    · rw [hrep]
      exact qmod_eq b _ _ hb hr0 hr1
    · rw [hrep, floor_div_eq b _ _ hb hr0 hr1]
  · intro hstay
    have hr0 : 0 ≤ qmod x b + inc := by linarith
    have hrep : x + inc = b * ((⌊x / b⌋ : ℤ) : ℚ) + (qmod x b + inc) := by
      linear_combination hx
    constructor
    · rw [hrep]
      exact qmod_eq b _ _ hb hr0 hstay
    · rw [hrep, floor_div_eq b _ _ hb hr0 hstay]

/-- Field-level description of `advanceBeat`. -/
theorem advanceBeat_spec (ctx : Session.MusicalContext) (R : ℚ) :
    (Session.advanceBeat ctx R).tempo = ctx.tempo ∧
    (Session.advanceBeat ctx R).is_playing = ctx.is_playing ∧
    (Session.advanceBeat ctx R).time_signature = ctx.time_signature ∧
    (((ctx.time_signature.1 : ℚ) ≤ ctx.beat_position + ctx.tempo / 60 / R →
      (Session.advanceBeat ctx R).beat_position
          = ctx.beat_position + ctx.tempo / 60 / R - (ctx.time_signature.1 : ℚ) ∧
      (Session.advanceBeat ctx R).bar_position = ctx.bar_position + 1) ∧
    (¬ (ctx.time_signature.1 : ℚ) ≤ ctx.beat_position + ctx.tempo / 60 / R →
      (Session.advanceBeat ctx R).beat_position
          = ctx.beat_position + ctx.tempo / 60 / R ∧
      (Session.advanceBeat ctx R).bar_position = ctx.bar_position)) := by
  unfold Session.advanceBeat
  by_cases h : (ctx.time_signature.1 : ℚ) ≤ ctx.beat_position + ctx.tempo / 60 / R <;>
    simp [h]

/-- Peeling an update cycle off the back of a run. -/
theorem run_cycles_succ_back (n : ℕ) (s : Session.SMState) :
    Session.run_cycles (n + 1) s =
      (Session.update_cycle (Session.run_cycles n s)).1 := by
  induction n generalizing s with
  | zero => rfl
  | succ m ih =>
      rw [Session.run_cycles, ih]
      rfl

/-- C2 (amended): while playing with no control commands, provided the
per-tick increment `(T/60)/R` does not exceed `beats_per_bar` (the source
wraps at most once per tick), after `n` cycles `beat_position` is exactly
`((T/60)/R * n) mod beats_per_bar` and `bar_position` has increased by
`⌊((T/60)/R * n) / beats_per_bar⌋`, in exact rational arithmetic. -/
theorem C2_amended (T R : ℚ) (bpb : ℕ) (hT : 0 < T) (hR : 0 < R)
    (hbpb : 0 < bpb) (hinc : T / 60 / R ≤ (bpb : ℚ)) (n : ℕ) :
    (Session.run_cycles n (Session.mkClockState T R bpb)).context.beat_position
        = qmod (T / 60 / R * n) (bpb : ℚ) ∧
    (Session.run_cycles n (Session.mkClockState T R bpb)).context.bar_position
        = 1 + ⌊(T / 60 / R * n) / (bpb : ℚ)⌋ := by
  have hbQ : (0 : ℚ) < (bpb : ℚ) := by exact_mod_cast hbpb
  have hinc0 : 0 ≤ T / 60 / R := by positivity
  have H : ∀ m : ℕ,
      (Session.run_cycles m (Session.mkClockState T R bpb)).context.beat_position
          = qmod (T / 60 / R * m) (bpb : ℚ) ∧
      (Session.run_cycles m (Session.mkClockState T R bpb)).context.bar_position
          = 1 + ⌊(T / 60 / R * m) / (bpb : ℚ)⌋ ∧
      (Session.run_cycles m (Session.mkClockState T R bpb)).context.tempo = T ∧
      (Session.run_cycles m (Session.mkClockState T R bpb)).context.is_playing = true ∧
      (Session.run_cycles m (Session.mkClockState T R bpb)).context.time_signature
          = (bpb, 4) ∧
      (Session.run_cycles m (Session.mkClockState T R bpb)).control_commands = [] ∧
      (Session.run_cycles m (Session.mkClockState T R bpb)).update_rate = R := by
    intro m
    induction m with
    | zero =>
        refine ⟨?_, ?_, rfl, rfl, rfl, rfl, rfl⟩
        · show (0 : ℚ) = qmod (T / 60 / R * (0 : ℕ)) (bpb : ℚ)
          unfold qmod
          norm_num
        · show (1 : ℤ) = 1 + ⌊(T / 60 / R * (0 : ℕ)) / (bpb : ℚ)⌋
          norm_num
    | succ m ih =>
        obtain ⟨hbeat, hbar, htempo, hplay, htsig, hcmds, hrate⟩ := ih
        rw [run_cycles_succ_back]
        have hctx : (Session.update_cycle
            (Session.run_cycles m (Session.mkClockState T R bpb))).1.context =
            Session.advanceBeat
              (Session.run_cycles m (Session.mkClockState T R bpb)).context
              (Session.run_cycles m (Session.mkClockState T R bpb)).update_rate := by
          simp [Session.update_cycle, Session.process_control_commands, hcmds, hplay]
        have hccmds : (Session.update_cycle
            (Session.run_cycles m (Session.mkClockState T R bpb))).1.control_commands
            = [] := by
          simp [Session.update_cycle]
        have hcrate : (Session.update_cycle
            (Session.run_cycles m (Session.mkClockState T R bpb))).1.update_rate
            = R := by
          simp [Session.update_cycle, hrate]
        have hstep := mod_floor_step (T / 60 / R * m) (T / 60 / R) (bpb : ℚ)
          hbQ hinc0 hinc
        have hcast : T / 60 / R * ((m + 1 : ℕ) : ℚ) = T / 60 / R * m + T / 60 / R := by
          push_cast; ring
        obtain ⟨hatempo, haplay, hatsig, hawrap, hastay⟩ :=
          advanceBeat_spec (Session.run_cycles m (Session.mkClockState T R bpb)).context
            (Session.run_cycles m (Session.mkClockState T R bpb)).update_rate
        rw [hrate] at hatempo haplay hatsig
        rw [htempo, hrate, hbeat, htsig] at hawrap hastay
        rw [show ((bpb, (4 : ℕ)).1) = bpb from rfl] at hawrap hastay
        rw [hctx, hrate]
        refine ⟨?_, ?_, ?_, ?_, ?_, hccmds, hcrate⟩
        · rw [hcast]
          by_cases hwrap : (bpb : ℚ) ≤ qmod (T / 60 / R * m) (bpb : ℚ) + T / 60 / R
          · rw [(hawrap hwrap).1, (hstep.1 hwrap).1]
          · rw [(hastay hwrap).1, (hstep.2 (not_le.mp hwrap)).1]
        · rw [hcast]
          by_cases hwrap : (bpb : ℚ) ≤ qmod (T / 60 / R * m) (bpb : ℚ) + T / 60 / R
          · rw [(hawrap hwrap).2, (hstep.1 hwrap).2, hbar]
            ring
          · rw [(hastay hwrap).2, (hstep.2 (not_le.mp hwrap)).2, hbar]
        · rw [hatempo]
          exact htempo
        · rw [haplay]
          exact hplay
        · rw [hatsig]
          exact htsig
  exact ⟨(H n).1, (H n).2.1⟩

/-- C2 (witness for the amended theorem): tempo 120 bpm at 30 Hz in 4/4
satisfies the increment bound, and one cycle lands on the predicted
remainder and floor. -/
theorem C2_amended_witness :
    (Session.run_cycles 1 (Session.mkClockState 120 30 4)).context.beat_position
        = qmod (120 / 60 / 30 * (1 : ℕ)) ((4 : ℕ) : ℚ) ∧
    (Session.run_cycles 1 (Session.mkClockState 120 30 4)).context.bar_position
        = 1 + ⌊(120 / 60 / 30 * (1 : ℕ)) / ((4 : ℕ) : ℚ)⌋ :=
  C2_amended 120 30 4 (by norm_num) (by norm_num) (by norm_num) (by norm_num) 1

/-- C2 (counterexample to the unrestricted claim): at tempo 9000 bpm and
30 Hz the per-tick increment is 5 beats > 4 = beats_per_bar; after 4 cycles
the code holds `beat_position = 4` and `bar_position = 5`, while the
claimed formulas give remainder 0 and bar 6. -/
theorem C2_counterexample :
    let s4 := Session.run_cycles 4 (Session.mkClockState 9000 30 4)
    s4.context.beat_position = 4 ∧ s4.context.bar_position = 5 ∧
      qmod (9000 / 60 / 30 * (4 : ℚ)) ((4 : ℕ) : ℚ) = 0 ∧
      1 + ⌊(9000 / 60 / 30 * (4 : ℚ)) / ((4 : ℕ) : ℚ)⌋ = 6 ∧
      (4 : ℚ) ≠ 0 ∧ (5 : ℤ) ≠ 6 := by
  refine ⟨?_, ?_, ?_, ?_, by norm_num, by norm_num⟩ <;>
    norm_num [Session.run_cycles, Session.update_cycle,
      Session.process_control_commands, Session.advanceBeat,
      Session.mkClockState, Session.initContext, qmod]

/-! ### C9: stopping the clock freezes beat/bar and silences agents -/

/-- When the context is not playing, the agent notification fold emits no
notes (every `on_context_update` returns `[]`). -/
theorem notes_fold_nil (ags : List Session.Agent) (ctx : Session.MusicalContext)
    (hp : ctx.is_playing = false) (acc : List Midi.Note) :
    ags.foldl (fun acc a => acc ++ Session.on_context_update a ctx) acc = acc := by
  induction ags generalizing acc with
  | nil => rfl
  | cons a rest ih =>
      have hnil : Session.on_context_update a ctx = [] := by
        unfold Session.on_context_update
        rw [if_neg]
        simp [hp]
      simp only [List.foldl_cons, hnil, List.append_nil]
      exact ih acc

/-- An update cycle on a stopped session with an empty command queue is a
no-op that emits no notes. -/
theorem update_cycle_stopped (s : Session.SMState)
    (hc : s.control_commands = []) (hp : s.context.is_playing = false) :
    Session.update_cycle s = (s, []) := by
  cases s with
  | mk rate ctx cmds ags =>
      simp only at hc hp
      subst hc
      simp only [Session.update_cycle, Session.process_control_commands,
        List.foldl_nil, hp, Bool.false_eq_true, if_false,
        notes_fold_nil ags ctx hp]

/-- Applying a queue holding exactly a stop command clears `is_playing`,
leaves beat/bar untouched in that same cycle, and emits no notes. -/
theorem update_cycle_stop (s : Session.SMState)
    (h : s.control_commands = [Session.Cmd.stop]) :
    Session.update_cycle s =
      ({ s with context := { s.context with is_playing := false },
                control_commands := [] }, []) := by
  have hp : ({ s.context with is_playing := false } :
      Session.MusicalContext).is_playing = false := rfl
  simp only [Session.update_cycle, h, Session.process_control_commands,
    List.foldl_cons, List.foldl_nil, Session.applyCmd, hp,
    Bool.false_eq_true, if_false,
    notes_fold_nil s.agents { s.context with is_playing := false } hp]

/-- A run on a stopped session with no queued commands stays put and
emits nothing. -/
theorem run_trace_stopped (n : ℕ) (t : Session.SMState)
    (hc : t.control_commands = []) (hp : t.context.is_playing = false) :
    (Session.run_trace n t).1 = t ∧ ∀ l ∈ (Session.run_trace n t).2, l = [] := by
  induction n with
  | zero => simp [Session.run_trace]
  | succ m ih =>
      have hcyc : Session.update_cycle t = (t, []) := update_cycle_stopped t hc hp
      simp only [Session.run_trace, hcyc]
      refine ⟨ih.1, ?_⟩
      intro l hl
      simp only [List.mem_cons] at hl
      rcases hl with h1 | h2
      · exact h1
      · exact ih.2 l h2

/-- C9 (confirmed): once a stop `ControlCommand` is applied, every
subsequent update cycle (with no further commands arriving, so
`is_playing` stays false) leaves `beat_position` and `bar_position`
exactly where they were, and no agent emits any note — including in the
cycle that applies the stop itself. -/
theorem C9_stop_freezes (s : Session.SMState)
    (h : s.control_commands = [Session.Cmd.stop]) (n : ℕ) :
    (Session.run_trace (n + 1) s).1.context.beat_position
        = s.context.beat_position ∧
    (Session.run_trace (n + 1) s).1.context.bar_position
        = s.context.bar_position ∧
    (Session.run_trace (n + 1) s).1.context.is_playing = false ∧
    ∀ l ∈ (Session.run_trace (n + 1) s).2, l = [] := by
  have h1 := update_cycle_stop s h
  have ht := run_trace_stopped n
    ({ s with context := { s.context with is_playing := false },
              control_commands := [] }) rfl rfl
  simp only [Session.run_trace, h1]
  refine ⟨?_, ?_, ?_, ?_⟩
  · rw [ht.1]
  · rw [ht.1]
  · rw [ht.1]
  · intro l hl
    simp only [List.mem_cons] at hl
    rcases hl with h2 | h3
    · exact h2
    · exact ht.2 l h3

/-- C9 (witness): a playing session at beat 1/2 of bar 2 with one
always-emitting agent and a queued stop command: two cycles later the
position is unchanged and no cycle emitted a note. -/
theorem C9_stop_freezes_witness :
    let s : Session.SMState :=
      { update_rate := 30,
        context := { Session.initContext with
                     is_playing := true
                     beat_position := 1/2
                     bar_position := 2 },
        control_commands := [Session.Cmd.stop],
        agents := [Session.demoAgent] }
    (Session.run_trace 2 s).1.context.beat_position = s.context.beat_position ∧
    (Session.run_trace 2 s).1.context.bar_position = s.context.bar_position ∧
    (Session.run_trace 2 s).1.context.is_playing = false ∧
    ∀ l ∈ (Session.run_trace 2 s).2, l = [] :=
  C9_stop_freezes _ rfl 1

/-! ### C10: `MusicalContext.update` silently ignores unknown keywords -/

/-- Setting one key leaves every other key's binding unchanged. -/
theorem dictGet_dictSet_ne {α β : Type} [DecidableEq α]
    (d : List (α × β)) (k k' : α) (v : β) (h : k ≠ k') :
    dictGet (dictSet d k v) k' = dictGet d k' := by
  induction d with
  | nil => simp [dictSet, dictGet, h]
  | cons p rest ih =>
      obtain ⟨k0, v0⟩ := p
      by_cases h0 : k0 = k
      · subst h0
        simp [dictSet, dictGet, h]
      · simp only [dictSet, if_neg h0]
        by_cases h1 : k0 = k'
        · simp [dictGet, h1]
        · simp [dictGet, h1, ih]

/-- C10 (confirmed): `MusicalContext.update(**kwargs)` never raises (it is
a total function of the object dict), and any attribute that is either not
named by the keywords, or named by a keyword that is not an existing
attribute, is left exactly as it was — unknown keyword names are silently
skipped by the `hasattr` guard. -/
theorem C10_update_frame (o : Obj) (kwargs : List (String × PyVal)) (k : String)
    (h : k ∉ kwargs.map Prod.fst ∨ dictGet o k = none) :
    dictGet (MusicalContext_update o kwargs) k = dictGet o k := by
  induction kwargs generalizing o with
  | nil => rfl
  | cons kv rest ih =>
      obtain ⟨k0, v⟩ := kv
      rw [MusicalContext_update]
      rcases h with hnotin | hnone
      · simp only [List.map_cons, List.mem_cons] at hnotin
        push_neg at hnotin
        have hk0 : k0 ≠ k := fun he => hnotin.1 he.symm
        have hget : dictGet (if hasattr o k0 then dictSet o k0 v else o) k
            = dictGet o k := by
          by_cases hat : hasattr o k0
          · rw [if_pos hat]
            exact dictGet_dictSet_ne o k0 k v hk0
          · rw [if_neg hat]
        rw [ih _ (Or.inl hnotin.2), hget]
      · by_cases hk0 : k0 = k
        · subst hk0
          have hat : hasattr o k0 = false := by
            unfold hasattr
            rw [hnone]
            rfl
          rw [hat]
          simp only [Bool.false_eq_true, if_false]
          exact ih o (Or.inr hnone)
        · have hget : dictGet (if hasattr o k0 then dictSet o k0 v else o) k
              = dictGet o k := by
            by_cases hat : hasattr o k0
            · rw [if_pos hat]
              exact dictGet_dictSet_ne o k0 k v hk0
            · rw [if_neg hat]
          rw [ih _ (Or.inr (hget.trans hnone)), hget]

/-- C10 (witness): updating a fresh `MusicalContext` with an unknown
keyword `bogus` and a known keyword `tempo` leaves the unrelated
attribute `key` untouched. -/
theorem C10_update_frame_witness :
    dictGet (MusicalContext_update initMusicalContextObj
      [("bogus", PyVal.num 1), ("tempo", PyVal.num 140)]) "key"
        = dictGet initMusicalContextObj "key" :=
  C10_update_frame initMusicalContextObj
    [("bogus", PyVal.num 1), ("tempo", PyVal.num 140)] "key"
    (Or.inl (by decide))

/-! ### C6 / C8: protocol translator emissions -/

/-- What `send_command` appends to the log. -/
theorem send_command_sent (c : Anim.AnimCtrl) (addr : String) (p : Anim.Payload) :
    (Anim.send_command c addr p).sent =
      c.sent ++ (if c.oscConnected then [(addr, p)] else []) := by
  unfold Anim.send_command
  by_cases h : c.oscConnected <;> simp [h]

/-- `update_tempo` appends its message and only changes the tracked tempo. -/
theorem update_tempo_spec (c : Anim.AnimCtrl) (t : ℚ) :
    (Anim.update_tempo c t).sent =
        c.sent ++ (if c.oscConnected then [("/tempo", Anim.Payload.num t)] else []) ∧
    (Anim.update_tempo c t).oscConnected = c.oscConnected ∧
    (Anim.update_tempo c t).animation_state.sectionLabel
        = c.animation_state.sectionLabel := by
  unfold Anim.update_tempo Anim.send_command
  by_cases h : c.oscConnected <;> simp [h]

/-- `update_section` appends its message and preserves the client flag. -/
theorem update_section_spec (c : Anim.AnimCtrl) (sec : String) :
    (Anim.update_section c sec).sent =
        c.sent ++ (if c.oscConnected then [("/section", Anim.Payload.str sec)] else []) ∧
    (Anim.update_section c sec).oscConnected = c.oscConnected := by
  unfold Anim.update_section Anim.send_command
  by_cases h : c.oscConnected <;> simp [h]

/-- `update_intensity` appends its message. -/
theorem update_intensity_spec (c : Anim.AnimCtrl) (dy : ℚ) :
    (Anim.update_intensity c dy).sent =
        c.sent ++ (if c.oscConnected then [("/intensity", Anim.Payload.num dy)] else []) := by
  unfold Anim.update_intensity Anim.send_command
  by_cases h : c.oscConnected <;> simp [h]

/-- `update_beat_position` appends its one or two messages and preserves
the rest of the controller. -/
theorem update_beat_position_spec (c : Anim.AnimCtrl) (b : ℚ) (br : ℤ) :
    (Anim.update_beat_position c b br).sent =
        c.sent ++ (if c.oscConnected then
          ("/beat", Anim.Payload.beatKV b br) ::
            (if |b - 0| < 1/20 ∨ |b - 2| < 1/20
             then [("/beat/strong", Anim.Payload.beatKV b br)] else [])
        else []) ∧
    (Anim.update_beat_position c b br).oscConnected = c.oscConnected ∧
    (Anim.update_beat_position c b br).animation_state = c.animation_state := by
  unfold Anim.update_beat_position Anim.send_command
  by_cases h : c.oscConnected <;> simp [h] <;> split_ifs <;> simp [h]

/-- The section group only depends on the client flag and the tracked
section. -/
theorem sectionMsgs_congr (c c' : Anim.AnimCtrl) (d : Anim.CtxDict)
    (ho : c'.oscConnected = c.oscConnected)
    (hs : c'.animation_state.sectionLabel = c.animation_state.sectionLabel) :
    Anim.sectionMsgs c' d = Anim.sectionMsgs c d := by
  unfold Anim.sectionMsgs
  rw [ho, hs]

/-- The beat group only depends on the client flag. -/
theorem beatMsgs_congr (c c' : Anim.AnimCtrl) (d : Anim.CtxDict)
    (ho : c'.oscConnected = c.oscConnected) :
    Anim.beatMsgs c' d = Anim.beatMsgs c d := by
  unfold Anim.beatMsgs
  rw [ho]

/-- The intensity group only depends on the client flag. -/
theorem intensityMsgs_congr (c c' : Anim.AnimCtrl) (d : Anim.CtxDict)
    (ho : c'.oscConnected = c.oscConnected) :
    Anim.intensityMsgs c' d = Anim.intensityMsgs c d := by
  unfold Anim.intensityMsgs
  rw [ho]

/-- One `update_from_musical_context` call appends exactly the four
message groups, in order. -/
theorem ufmc_sent (c : Anim.AnimCtrl) (d : Anim.CtxDict) :
    (Anim.update_from_musical_context c d).sent =
      c.sent ++ (Anim.tempoMsgs c d ++ (Anim.sectionMsgs c d ++
        (Anim.beatMsgs c d ++ Anim.intensityMsgs c d))) := by
  have stage1 : ∀ c0 : Anim.AnimCtrl,
      (Anim.ufmcTempoStage c0 d).sent = c0.sent ++ Anim.tempoMsgs c0 d ∧
      (Anim.ufmcTempoStage c0 d).oscConnected = c0.oscConnected ∧
      (Anim.ufmcTempoStage c0 d).animation_state.sectionLabel
          = c0.animation_state.sectionLabel := by
    intro c0
    unfold Anim.ufmcTempoStage
    rcases hd : d.tempo with _ | t
    · simp [Anim.tempoMsgs, hd]
    · by_cases hne : t ≠ c0.animation_state.tempo
      · simpa [Anim.tempoMsgs, hd, hne] using update_tempo_spec c0 t
      · simp [Anim.tempoMsgs, hd, hne]
  have stage2 : ∀ c0 : Anim.AnimCtrl,
      (Anim.ufmcSectionStage c0 d).sent = c0.sent ++ Anim.sectionMsgs c0 d ∧
      (Anim.ufmcSectionStage c0 d).oscConnected = c0.oscConnected := by
    intro c0
    unfold Anim.ufmcSectionStage
    rcases hd : d.sectionLabel with _ | sec
    · simp [Anim.sectionMsgs, hd]
    · by_cases hne : sec ≠ c0.animation_state.sectionLabel
      · simpa [Anim.sectionMsgs, hd, hne] using update_section_spec c0 sec
      · simp [Anim.sectionMsgs, hd, hne]
  have stage3 : ∀ c0 : Anim.AnimCtrl,
      (Anim.ufmcBeatStage c0 d).sent = c0.sent ++ Anim.beatMsgs c0 d ∧
      (Anim.ufmcBeatStage c0 d).oscConnected = c0.oscConnected := by
    intro c0
    unfold Anim.ufmcBeatStage
    rcases hb : d.beat_position with _ | b <;> rcases hbr : d.bar_position with _ | br
    · simp [Anim.beatMsgs, hb, hbr]
    · simp [Anim.beatMsgs, hb, hbr]
    · simp [Anim.beatMsgs, hb, hbr]
    · refine ⟨?_, ?_⟩
      · show (Anim.update_beat_position c0 b br).sent = _
        rw [(update_beat_position_spec c0 b br).1]
        simp [Anim.beatMsgs, hb, hbr]
      · show (Anim.update_beat_position c0 b br).oscConnected = _
        exact (update_beat_position_spec c0 b br).2.1
  have stage4 : ∀ c0 : Anim.AnimCtrl,
      (Anim.ufmcIntensityStage c0 d).sent = c0.sent ++ Anim.intensityMsgs c0 d := by
    intro c0
    unfold Anim.ufmcIntensityStage
    rcases hd : d.dynamics with _ | dy
    · simp [Anim.intensityMsgs, hd]
    · simpa [Anim.intensityMsgs, hd] using update_intensity_spec c0 dy
  obtain ⟨h1s, h1o, h1sec⟩ := stage1 c
  obtain ⟨h2s, h2o⟩ := stage2 (Anim.ufmcTempoStage c d)
  obtain ⟨h3s, h3o⟩ := stage3 (Anim.ufmcSectionStage (Anim.ufmcTempoStage c d) d)
  have h4s := stage4
    (Anim.ufmcBeatStage (Anim.ufmcSectionStage (Anim.ufmcTempoStage c d) d) d)
  unfold Anim.update_from_musical_context
  rw [h4s, h3s, h2s, h1s]
  rw [sectionMsgs_congr c _ d h1o h1sec,
      beatMsgs_congr c _ d (h2o.trans h1o),
      intensityMsgs_congr c _ d ((h3o.trans h2o).trans h1o)]
  simp [List.append_assoc]

/-- The emitted messages of one call are the four groups. -/
theorem emittedMsgs_eq (c : Anim.AnimCtrl) (d : Anim.CtxDict) :
    Anim.emittedMsgs c d =
      Anim.tempoMsgs c d ++ (Anim.sectionMsgs c d ++
        (Anim.beatMsgs c d ++ Anim.intensityMsgs c d)) := by
  unfold Anim.emittedMsgs
  rw [ufmc_sent]
  simp

/-- The tempo group is either empty (no changed tempo in the snapshot) or
the single gated `/tempo` message. -/
theorem tempoMsgs_cases (c : Anim.AnimCtrl) (d : Anim.CtxDict)
    (h : c.oscConnected = true) :
    (∃ t, d.tempo = some t ∧ t ≠ c.animation_state.tempo ∧
        Anim.tempoMsgs c d = [("/tempo", Anim.Payload.num t)]) ∨
    (Anim.tempoMsgs c d = [] ∧
        ∀ t, d.tempo = some t → t = c.animation_state.tempo) := by
  obtain ⟨tq, so, bo, bro, dyo⟩ := d
  rcases tq with _ | t
  · right
    constructor
    · simp [Anim.tempoMsgs, h]
    · intro t ht
      simp at ht
  · by_cases hne : t = c.animation_state.tempo
    · right
      constructor
      · simp [Anim.tempoMsgs, h, hne]
      · intro t' ht'
        simp at ht'
        rw [← ht']
        exact hne
    · left
      exact ⟨t, rfl, hne, by simp [Anim.tempoMsgs, h, hne]⟩

/-- The section group is either empty or the single gated `/section`
message. -/
theorem sectionMsgs_cases (c : Anim.AnimCtrl) (d : Anim.CtxDict)
    (h : c.oscConnected = true) :
    (∃ sec, d.sectionLabel = some sec ∧ sec ≠ c.animation_state.sectionLabel ∧
        Anim.sectionMsgs c d = [("/section", Anim.Payload.str sec)]) ∨
    (Anim.sectionMsgs c d = [] ∧
        ∀ sec, d.sectionLabel = some sec → sec = c.animation_state.sectionLabel) := by
  obtain ⟨tq, so, bo, bro, dyo⟩ := d
  rcases so with _ | sec
  · right
    constructor
    · simp [Anim.sectionMsgs, h]
    · intro sec hs
      simp at hs
  · by_cases hne : sec = c.animation_state.sectionLabel
    · right
      constructor
      · simp [Anim.sectionMsgs, h, hne]
      · intro sec' hs'
        simp at hs'
        rw [← hs']
        exact hne
    · left
      exact ⟨sec, rfl, hne, by simp [Anim.sectionMsgs, h, hne]⟩

/-- The intensity group is the (ungated) `/intensity` message whenever
dynamics is present. -/
theorem intensityMsgs_cases (c : Anim.AnimCtrl) (d : Anim.CtxDict)
    (h : c.oscConnected = true) :
    (∃ dy, d.dynamics = some dy ∧
        Anim.intensityMsgs c d = [("/intensity", Anim.Payload.num dy)]) ∨
    (d.dynamics = none ∧ Anim.intensityMsgs c d = []) := by
  obtain ⟨tq, so, bo, bro, dyo⟩ := d
  rcases dyo with _ | dy
  · right
    exact ⟨rfl, by simp [Anim.intensityMsgs, h]⟩
  · left
    exact ⟨dy, rfl, by simp [Anim.intensityMsgs, h]⟩

/-- Every beat-group message is addressed `/beat` or `/beat/strong`. -/
theorem beatMsgs_addr (c : Anim.AnimCtrl) (d : Anim.CtxDict) :
    ∀ p ∈ Anim.beatMsgs c d, p.1 = "/beat" ∨ p.1 = "/beat/strong" := by
  obtain ⟨tq, so, bo, bro, dyo⟩ := d
  intro p hp
  rcases bo with _ | b <;> rcases bro with _ | br <;>
    by_cases hosc : c.oscConnected <;>
    simp [Anim.beatMsgs, hosc] at hp
  rcases hp with hp | hp
  · left
    rw [hp]
  · right
    rw [hp.2]

/-- C6 (amended): with the OSC client up, a `/tempo` (resp. `/section`)
message is emitted exactly when the snapshot carries a tempo (resp.
section) different from the tracked last-emitted value — but the
dynamics→`/intensity` message is emitted whenever the snapshot contains a
dynamics value at all, with no change gate in the source. -/
theorem C6_amended (c : Anim.AnimCtrl) (d : Anim.CtxDict)
    (h : c.oscConnected = true) :
    ((∃ p ∈ Anim.emittedMsgs c d, p.1 = "/tempo") ↔
        ∃ t, d.tempo = some t ∧ t ≠ c.animation_state.tempo) ∧
    ((∃ p ∈ Anim.emittedMsgs c d, p.1 = "/section") ↔
        ∃ sec, d.sectionLabel = some sec ∧ sec ≠ c.animation_state.sectionLabel) ∧
    ((∃ p ∈ Anim.emittedMsgs c d, p.1 = "/intensity") ↔ d.dynamics.isSome = true) := by
  have ht := tempoMsgs_cases c d h
  have hs := sectionMsgs_cases c d h
  have hi := intensityMsgs_cases c d h
  have hb := beatMsgs_addr c d
  rw [emittedMsgs_eq]
  refine ⟨⟨?_, ?_⟩, ⟨?_, ?_⟩, ⟨?_, ?_⟩⟩
  · rintro ⟨p, hp, haddr⟩
    simp only [List.mem_append] at hp
    rcases hp with hp | hp | hp | hp
    · rcases ht with ⟨t, hsome, hne, heq⟩ | ⟨heq, _⟩
      · exact ⟨t, hsome, hne⟩
      · rw [heq] at hp
        simp at hp
    · rcases hs with ⟨sec, _, _, heq⟩ | ⟨heq, _⟩
      · rw [heq] at hp
        simp only [List.mem_singleton] at hp
        subst hp
        simp at haddr
      · rw [heq] at hp
        simp at hp
    · rcases hb p hp with h1 | h1 <;> rw [haddr] at h1 <;> exact absurd h1 (by decide)
    · rcases hi with ⟨dy, _, heq⟩ | ⟨_, heq⟩
      · rw [heq] at hp
        simp only [List.mem_singleton] at hp
        subst hp
        simp at haddr
      · rw [heq] at hp
        simp at hp
  · rintro ⟨t, hsome, hne⟩
    rcases ht with ⟨t', _, _, heq⟩ | ⟨_, hall⟩
    · refine ⟨("/tempo", Anim.Payload.num t'), ?_, rfl⟩
      simp only [List.mem_append]
      left
      rw [heq]
      simp
    · exact absurd (hall t hsome) hne
  · rintro ⟨p, hp, haddr⟩
    simp only [List.mem_append] at hp
    rcases hp with hp | hp | hp | hp
    · rcases ht with ⟨t, _, _, heq⟩ | ⟨heq, _⟩
      · rw [heq] at hp
        simp only [List.mem_singleton] at hp
        subst hp
        simp at haddr
      · rw [heq] at hp
        simp at hp
    · rcases hs with ⟨sec, hsome, hne, heq⟩ | ⟨heq, _⟩
      · exact ⟨sec, hsome, hne⟩
      · rw [heq] at hp
        simp at hp
    · rcases hb p hp with h1 | h1 <;> rw [haddr] at h1 <;> exact absurd h1 (by decide)
    · rcases hi with ⟨dy, _, heq⟩ | ⟨_, heq⟩
      · rw [heq] at hp
        simp only [List.mem_singleton] at hp
        subst hp
        simp at haddr
      · rw [heq] at hp
        simp at hp
  · rintro ⟨sec, hsome, hne⟩
    rcases hs with ⟨sec', _, _, heq⟩ | ⟨_, hall⟩
    · refine ⟨("/section", Anim.Payload.str sec'), ?_, rfl⟩
      simp only [List.mem_append]
      right; left
      rw [heq]
      simp
    · exact absurd (hall sec hsome) hne
  · rintro ⟨p, hp, haddr⟩
    simp only [List.mem_append] at hp
    rcases hp with hp | hp | hp | hp
    · rcases ht with ⟨t, _, _, heq⟩ | ⟨heq, _⟩
      · rw [heq] at hp
        simp only [List.mem_singleton] at hp
        subst hp
        simp at haddr
      · rw [heq] at hp
        simp at hp
    · rcases hs with ⟨sec, _, _, heq⟩ | ⟨heq, _⟩
      · rw [heq] at hp
        simp only [List.mem_singleton] at hp
        subst hp
        simp at haddr
      · rw [heq] at hp
        simp at hp
    · rcases hb p hp with h1 | h1 <;> rw [haddr] at h1 <;> exact absurd h1 (by decide)
    · rcases hi with ⟨dy, hd1, _⟩ | ⟨hd1, heq⟩
      · rw [hd1]
        rfl
      · rw [heq] at hp
        simp at hp
  · intro hdy
    rcases hi with ⟨dy, _, heq⟩ | ⟨hd1, _⟩
    · refine ⟨("/intensity", Anim.Payload.num dy), ?_, rfl⟩
      simp only [List.mem_append]
      right; right; right
      rw [heq]
      simp
    · rw [hd1] at hdy
      simp at hdy

/-- C6 (witness): applying the amended theorem to a fresh controller and a
snapshot carrying only a changed tempo. -/
theorem C6_amended_witness :
    ((∃ p ∈ Anim.emittedMsgs (Anim.mkAnimationController true)
          { tempo := some 130 }, p.1 = "/tempo") ↔
        ∃ t, ({ tempo := some 130 } : Anim.CtxDict).tempo = some t ∧
          t ≠ (Anim.mkAnimationController true).animation_state.tempo) ∧
    ((∃ p ∈ Anim.emittedMsgs (Anim.mkAnimationController true)
          { tempo := some 130 }, p.1 = "/section") ↔
        ∃ sec, ({ tempo := some 130 } : Anim.CtxDict).sectionLabel = some sec ∧
          sec ≠ (Anim.mkAnimationController true).animation_state.sectionLabel) ∧
    ((∃ p ∈ Anim.emittedMsgs (Anim.mkAnimationController true)
          { tempo := some 130 }, p.1 = "/intensity") ↔
        ({ tempo := some 130 } : Anim.CtxDict).dynamics.isSome = true) :=
  C6_amended (Anim.mkAnimationController true) { tempo := some 130 } rfl

/-- C6 (counterexample): a snapshot whose dynamics equals the tracked
intensity (the initial 0.5) still triggers an `/intensity` message —
refuting "if the value is unchanged, no message for that field is sent". -/
theorem C6_counterexample :
    (∃ p ∈ Anim.emittedMsgs (Anim.mkAnimationController true)
        { dynamics := some (1/2) }, p.1 = "/intensity") ∧
      ({ dynamics := some (1/2) } : Anim.CtxDict).dynamics
        = some (Anim.mkAnimationController true).animation_state.intensity := by
  constructor
  · refine ⟨("/intensity", Anim.Payload.num (1/2)), ?_, rfl⟩
    simp [Anim.emittedMsgs, Anim.update_from_musical_context,
      Anim.ufmcTempoStage, Anim.ufmcSectionStage, Anim.ufmcBeatStage,
      Anim.ufmcIntensityStage, Anim.update_intensity, Anim.send_command,
      Anim.mkAnimationController]
  · rfl

/-- C8 (amended): with the OSC client up, every `update_beat_position`
call emits a `/beat` message, and emits the distinguished `/beat/strong`
message exactly when the beat is within 0.05 of the hard-coded positions
0.0 or 2.0 — independent of any time signature. -/
theorem C8_amended (c : Anim.AnimCtrl) (beat : ℚ) (bar : ℤ)
    (h : c.oscConnected = true) :
    ("/beat", Anim.Payload.beatKV beat bar) ∈
        (Anim.update_beat_position c beat bar).sent.drop c.sent.length ∧
    (("/beat/strong", Anim.Payload.beatKV beat bar) ∈
        (Anim.update_beat_position c beat bar).sent.drop c.sent.length ↔
      (|beat - 0| < 1/20 ∨ |beat - 2| < 1/20)) := by
  obtain ⟨hsent, -, -⟩ := update_beat_position_spec c beat bar
  simp only [h, if_true] at hsent
  rw [hsent, List.drop_left]
  by_cases hc : |beat - 0| < 1/20 ∨ |beat - 2| < 1/20
  · rw [if_pos hc]
    refine ⟨by simp, fun _ => hc, fun _ => by simp⟩
  · rw [if_neg hc]
    refine ⟨by simp, ?_, fun hcc => absurd hcc hc⟩
    intro hmem
    simp at hmem

/-- C8 (witness): applying the amended theorem at beat 0 of bar 1 on a
fresh controller. -/
theorem C8_amended_witness :
    ("/beat", Anim.Payload.beatKV 0 1) ∈
        (Anim.update_beat_position (Anim.mkAnimationController true) 0 1).sent.drop
          (Anim.mkAnimationController true).sent.length ∧
    (("/beat/strong", Anim.Payload.beatKV 0 1) ∈
        (Anim.update_beat_position (Anim.mkAnimationController true) 0 1).sent.drop
          (Anim.mkAnimationController true).sent.length ↔
      (|(0 : ℚ) - 0| < 1/20 ∨ |(0 : ℚ) - 2| < 1/20)) :=
  C8_amended (Anim.mkAnimationController true) 0 1 rfl

/-- C8 (counterexample): in a 6-beat bar the claim demands a strong-beat
message at beat 3 = beats_per_bar/2, but the source, which hard-codes
beats 0.0 and 2.0, emits none there. -/
theorem C8_counterexample :
    (∀ p ∈ (Anim.update_beat_position (Anim.mkAnimationController true) 3 1).sent,
        p.1 ≠ "/beat/strong") ∧
      |(3 : ℚ) - (6 : ℚ) / 2| < 1/20 := by
  have hcond : ¬(|(3 : ℚ) - 0| < 1/20 ∨ |(3 : ℚ) - 2| < 1/20) := by
    rw [not_or]
    constructor <;> rw [abs_lt, not_and_or] <;> right <;> norm_num
  obtain ⟨hsent, -, -⟩ :=
    update_beat_position_spec (Anim.mkAnimationController true) 3 1
  rw [if_neg hcond,
      show (Anim.mkAnimationController true).oscConnected = true from rfl,
      show (Anim.mkAnimationController true).sent
          = ([] : List (String × Anim.Payload)) from rfl] at hsent
  simp only [eq_self_iff_true, if_true, List.nil_append] at hsent
  constructor
  · intro p hp
    rw [hsent] at hp
    simp only [List.mem_singleton] at hp
    subst hp
    decide
  · rw [abs_lt]
    norm_num

/-! ### C3: `analyze_frame` tolerance of short frames -/

/-- Pre-emphasis preserves the frame length. -/
theorem apply_pre_emphasis_length (coef : ℚ) (x : ℚ) (xs : List ℚ) (f : List ℚ)
    (h : Audio.apply_pre_emphasis coef (x :: xs) = Except.ok f) :
    f.length = (x :: xs).length := by
  unfold Audio.apply_pre_emphasis at h
  cases h
  simp [List.length_zipWith]

/-- C3 (counterexample): the empty frame raises `IndexError` out of
`analyze_frame` — `_apply_pre_emphasis` indexes `audio_frame[0]` outside
any try/except — so "including the empty frame … never raises" fails. -/
theorem C3_counterexample :
    Audio.analyze_frame Audio.extFail 512 Audio.initAnalyzerState []
      = Except.error PyErr.indexError := rfl

/-- C3 (amended): for every NONEMPTY frame, every oracle behaviour and
every state, `analyze_frame` returns a snapshot without raising, and a
frame shorter than the analysis window yields the neutral defaults with
zero confidence for the windowed features (tempo, pitch, chords, timbre);
only the empty frame raises (`IndexError` in pre-emphasis). -/
theorem C3_amended (ext : Audio.Ext) (hop : ℕ) (st : Audio.AnalyzerState)
    (frame : List ℚ) (hne : frame ≠ []) :
    ∃ snap st', Audio.analyze_frame ext hop st frame = Except.ok (snap, st') ∧
      (frame.length < hop →
        snap.tempo = ⟨120, 0⟩ ∧
        snap.pitch = ⟨none, 0, none⟩ ∧
        snap.chords = ⟨[], 0⟩ ∧
        snap.timbre = ⟨List.replicate 13 0, 0, List.replicate 6 0⟩) := by
  obtain ⟨x, xs, rfl⟩ := List.exists_cons_of_ne_nil hne
  have hpre : Audio.apply_pre_emphasis (97/100) (x :: xs) =
      Except.ok (x :: List.zipWith (fun a b => a - (97/100) * b) xs (x :: xs)) := rfl
  have hlen : (x :: List.zipWith (fun a b => a - (97/100) * b) xs (x :: xs)).length
      = (x :: xs).length := apply_pre_emphasis_length _ x xs _ hpre
  unfold Audio.analyze_frame
  rw [hpre]
  refine ⟨_, _, rfl, ?_⟩
  intro hshort
  rw [← hlen] at hshort
  refine ⟨?_, ?_, ?_, ?_⟩
  · show (Audio.estimate_tempo ext hop _ _).1 = _
    unfold Audio.estimate_tempo
    rw [if_pos hshort]
  · show (Audio.extract_pitch ext hop _ _).1 = _
    unfold Audio.extract_pitch
    rw [if_pos hshort]
  · show (Audio.extract_chords ext hop _ _).1 = _
    unfold Audio.extract_chords
    rw [if_pos hshort]
  · show Audio.extract_timbre ext hop _ = _
    unfold Audio.extract_timbre
    rw [if_pos hshort]

/-- C3 (witness): a one-sample frame with every library call failing:
`analyze_frame` still returns a snapshot, with defaults for the windowed
features. -/
theorem C3_amended_witness :
    ∃ snap st', Audio.analyze_frame Audio.extFail 512 Audio.initAnalyzerState [1]
        = Except.ok (snap, st') ∧
      (([1] : List ℚ).length < 512 →
        snap.tempo = ⟨120, 0⟩ ∧
        snap.pitch = ⟨none, 0, none⟩ ∧
        snap.chords = ⟨[], 0⟩ ∧
        snap.timbre = ⟨List.replicate 13 0, 0, List.replicate 6 0⟩) :=
  C3_amended Audio.extFail 512 Audio.initAnalyzerState [1] (by simp)

/-! ### C7: confidence and dynamics bounds -/

/-- A max-fold over a list lands in the list and bounds it. -/
theorem foldl_max_spec (xs : List ℚ) (x : ℚ) :
    xs.foldl max x ∈ x :: xs ∧ x ≤ xs.foldl max x ∧ ∀ y ∈ xs, y ≤ xs.foldl max x := by
  induction xs generalizing x with
  | nil => exact ⟨List.mem_singleton_self x, le_refl x, by simp⟩
  | cons z zs ih =>
      simp only [List.foldl_cons]
      obtain ⟨hmem, hle, hall⟩ := ih (max x z)
      refine ⟨?_, ?_, ?_⟩
      · rcases List.mem_cons.mp hmem with h | h
        · rcases max_choice x z with hm | hm <;> rw [hm] at h ⊢ <;> simp [h]
        · simp [List.mem_cons, h]
      · exact le_trans (le_max_left x z) hle
      · intro y hy
        rcases List.mem_cons.mp hy with h | h
        · rw [h]
          exact le_trans (le_max_right x z) hle
        · exact hall y h

/-- `maxQ` of a nonempty list is its greatest element. -/
theorem maxQ_spec (l : List ℚ) (h : l ≠ []) :
    Audio.maxQ l ∈ l ∧ ∀ y ∈ l, y ≤ Audio.maxQ l := by
  match l with
  | x :: xs =>
      obtain ⟨hmem, hle, hall⟩ := foldl_max_spec xs x
      refine ⟨hmem, ?_⟩
      intro y hy
      rcases List.mem_cons.mp hy with h | h
      · rw [h]; exact hle
      · exact hall y h

/-- Any element that dominates the list is its `maxQ`. -/
theorem maxQ_eq_of_spec (l : List ℚ) (v : ℚ) (hv : v ∈ l)
    (hmax : ∀ y ∈ l, y ≤ v) : Audio.maxQ l = v := by
  obtain ⟨hm, hall⟩ := maxQ_spec l (List.ne_nil_of_mem hv)
  exact le_antisymm (hmax _ hm) (hall v hv)

/-- `argmaxP` finds something on a nonempty list. -/
theorem argmaxP_isSome (l : List ℚ) (h : l ≠ []) : (Audio.argmaxP l).isSome := by
  cases l with
  | nil => simp at h
  | cons x xs =>
      rw [Audio.argmaxP]
      rcases Audio.argmaxP xs with _ | p
      · simp
      · obtain ⟨j, m⟩ := p
        by_cases hlt : x < m <;> simp [hlt]

/-- `argmaxP` returns a member that dominates the list. -/
theorem argmaxP_spec (l : List ℚ) (j : ℕ) (m : ℚ)
    (h : Audio.argmaxP l = some (j, m)) : m ∈ l ∧ ∀ y ∈ l, y ≤ m := by
  induction l generalizing j m with
  | nil => cases h
  | cons x xs ih =>
      rcases hx : Audio.argmaxP xs with _ | p
      · have hxs : xs = [] := by
          cases xs with
          | nil => rfl
          | cons z zs =>
              have hsome := argmaxP_isSome (z :: zs) (by simp)
              rw [hx] at hsome
              simp at hsome
        subst hxs
        have hred : Audio.argmaxP [x] = some (0, x) := rfl
        rw [hred] at h
        cases h
        exact ⟨by simp, by simp⟩
      · obtain ⟨j', m'⟩ := p
        obtain ⟨hmem, hall⟩ := ih j' m' hx
        simp only [Audio.argmaxP, hx] at h
        by_cases hlt : x < m'
        · rw [if_pos hlt] at h
          cases h
          refine ⟨List.mem_cons_of_mem x hmem, ?_⟩
          intro y hy
          rcases List.mem_cons.mp hy with hh | hh
          · rw [hh]; exact le_of_lt hlt
          · exact hall y hh
        · rw [if_neg hlt] at h
          cases h
          refine ⟨List.mem_cons_self x xs, ?_⟩
          intro y hy
          rcases List.mem_cons.mp hy with hh | hh
          · rw [hh]
          · exact le_trans (hall y hh) (not_lt.mp hlt)

/-- The value returned by `argmaxP` is `maxQ`. -/
theorem argmaxP_val (l : List ℚ) (j : ℕ) (m : ℚ)
    (h : Audio.argmaxP l = some (j, m)) : m = Audio.maxQ l := by
  obtain ⟨hmem, hall⟩ := argmaxP_spec l j m h
  exact (maxQ_eq_of_spec l m hmem hall).symm

/-- Mean of a nonempty list of `[0,1]` values is in `[0,1]`. -/
theorem meanQ_bounds (l : List ℚ) (hne : l ≠ [])
    (h : ∀ y ∈ l, 0 ≤ y ∧ y ≤ 1) : 0 ≤ Audio.meanQ l ∧ Audio.meanQ l ≤ 1 := by
  have hlen : 0 < (l.length : ℚ) := by
    have : 0 < l.length := List.length_pos.mpr hne
    exact_mod_cast this
  have hsum0 : 0 ≤ l.sum := List.sum_nonneg (fun y hy => (h y hy).1)
  have hsum1 : l.sum ≤ (l.length : ℚ) := by
    calc l.sum ≤ (l.length : ℚ) * 1 := by
          have := List.sum_le_card_nsmul l 1 (fun y hy => (h y hy).2)
          simpa using this
    _ = (l.length : ℚ) := by ring
  constructor
  · exact div_nonneg hsum0 hlen.le
  · rw [Audio.meanQ, div_le_one hlen]
    exact hsum1

/-- Membership after a `deque(maxlen)` push. -/
theorem pushMax_mem {α : Type} (n : ℕ) (xs : List α) (x y : α)
    (h : y ∈ Audio.pushMax n xs x) : y ∈ xs ∨ y = x := by
  simp only [Audio.pushMax] at h
  split at h
  · have : y ∈ xs ++ [x] := List.mem_of_mem_drop h
    simpa using this
  · simpa using h

/-- A bounded push onto a nonempty budget stays nonempty. -/
theorem pushMax_ne_nil {α : Type} (n : ℕ) (hn : 0 < n) (xs : List α) (x : α) :
    Audio.pushMax n xs x ≠ [] := by
  simp only [Audio.pushMax]
  split
  · intro hcon
    have hlen := congrArg List.length hcon
    simp [List.length_drop] at hlen
    omega
  · simp

/-- Indexing success yields a member. -/
theorem listGetQ_mem (l : List ℚ) (i : ℕ) (v : ℚ)
    (h : Audio.listGetQ l i = Except.ok v) : v ∈ l := by
  unfold Audio.listGetQ at h
  rcases hg : l.get? i with _ | w
  · rw [hg] at h
    cases h
  · rw [hg] at h
    cases h
    exact List.get?_mem hg

/-- The tempo confidence computed from a nonnegative tempo distribution
lies in `[0,1]`. -/
theorem get_tempo_conf_bound (ext : Audio.Ext) (env : List ℚ)
    (H2 : ∀ l dist, ext.tempo_dist l = Except.ok dist → ∀ x ∈ dist, 0 ≤ x)
    (t c : ℚ) (h : Audio.get_tempo_from_onset_env ext env = Except.ok (t, c)) :
    0 ≤ c ∧ c ≤ 1 := by
  unfold Audio.get_tempo_from_onset_env at h
  rcases hd : ext.tempo_dist env with e | dist
  · simp only [hd] at h
    cases h
  · simp only [hd] at h
    have hnn := H2 env dist hd
    by_cases hpk : (ext.find_peaks dist).isEmpty
    · rw [if_pos hpk] at h
      cases h
      norm_num
    · rw [if_neg hpk] at h
      rcases hv : Audio.listGetAll dist (ext.find_peaks dist) with e | vals
      · simp only [hv] at h
        cases h
      · simp only [hv] at h
        rcases ha : Audio.argmaxP vals with _ | p
        · simp only [ha] at h
          cases h
        · obtain ⟨j, mval⟩ := p
          simp only [ha] at h
          rcases hj : (ext.find_peaks dist).get? j with _ | mpi
          · simp only [hj] at h
            cases h
          · simp only [hj] at h
            rcases hq : Audio.listGetQ dist mpi with e | mpv
            · simp only [hq] at h
              cases h
            · simp only [hq] at h
              rcases hag : ext.tempo_agg env with e | tv
              · simp only [hag] at h
                cases h
              · simp only [hag] at h
                cases h
                have hmem := listGetQ_mem dist mpi mpv hq
                by_cases hs : 0 < dist.sum
                · rw [if_pos hs]
                  constructor
                  · exact div_nonneg (hnn mpv hmem) hs.le
                  · rw [div_le_one hs]
                    exact List.single_le_sum hnn mpv hmem
                · rw [if_neg hs]
                  norm_num

/-- The confidence reported by `_estimate_tempo` lies in `[0,1]`. -/
theorem estimate_tempo_conf_bound (ext : Audio.Ext) (hop : ℕ)
    (st : Audio.AnalyzerState) (frame : List ℚ)
    (H2 : ∀ l dist, ext.tempo_dist l = Except.ok dist → ∀ x ∈ dist, 0 ≤ x) :
    0 ≤ (Audio.estimate_tempo ext hop st frame).1.confidence ∧
      (Audio.estimate_tempo ext hop st frame).1.confidence ≤ 1 := by
  unfold Audio.estimate_tempo
  dsimp only
  split
  · norm_num
  · split
    · norm_num
    · rename_i env henv
      split
      · rcases hg : Audio.get_tempo_from_onset_env ext
            (Audio.pushMax 3 st.onset_env_history env).join with e | p
        · simp only [hg]
          norm_num
        · obtain ⟨tempo, conf⟩ := p
          simp only [hg]
          simpa using get_tempo_conf_bound ext _ H2 tempo conf hg
      · norm_num

/-- `_extract_pitch` leaves the chroma history untouched. -/
theorem extract_pitch_chroma_history (ext : Audio.Ext) (hop : ℕ)
    (st : Audio.AnalyzerState) (frame : List ℚ) :
    (Audio.extract_pitch ext hop st frame).2.chroma_history = st.chroma_history := by
  unfold Audio.extract_pitch
  dsimp only
  repeat' split
  all_goals rfl

/-- The confidence reported by `_extract_pitch` lies in `[0,1]`, provided
every recorded confidence did. -/
theorem extract_pitch_conf_bound (ext : Audio.Ext) (hop : ℕ)
    (st : Audio.AnalyzerState) (frame : List ℚ)
    (H3 : ∀ y ∈ st.pitch_confidence_history, 0 ≤ y ∧ y ≤ 1) :
    0 ≤ (Audio.extract_pitch ext hop st frame).1.confidence ∧
      (Audio.extract_pitch ext hop st frame).1.confidence ≤ 1 := by
  unfold Audio.extract_pitch
  dsimp only
  split
  · norm_num
  · rcases hpip : ext.piptrack frame with e | pr
    · simp only [hpip]
      norm_num
    · obtain ⟨pitches, mags⟩ := pr
      simp only [hpip]
      rcases harg : Audio.argmaxP mags with _ | p
      · simp only [harg]
        norm_num
      · obtain ⟨idx, m⟩ := p
        simp only [harg]
        rcases hget : pitches.get? idx with _ | pitch
        · simp only [hget]
          norm_num
        · simp only [hget]
          have key : ∀ v : ℚ, 0 ≤ v → v ≤ 1 →
              0 ≤ Audio.meanQ (Audio.pushMax 5 st.pitch_confidence_history v) ∧
              Audio.meanQ (Audio.pushMax 5 st.pitch_confidence_history v) ≤ 1 := by
            intro v h0 h1
            refine meanQ_bounds _ (pushMax_ne_nil 5 (by norm_num) _ _) ?_
            intro y hy
            rcases pushMax_mem 5 _ _ y hy with hmem | heq
            · exact H3 y hmem
            · subst heq
              exact ⟨h0, h1⟩
          by_cases hm : 0 < Audio.maxQ mags
          · rw [if_pos hm]
            have hconf1 : m / Audio.maxQ mags = 1 := by
              rw [argmaxP_val mags idx m harg, div_self hm.ne']
            rw [hconf1]
            split
            · split
              · split
                · norm_num
                · simpa using key 1 (by norm_num) (by norm_num)
              · norm_num
            · norm_num
          · rw [if_neg hm]
            split
            · split
              · split
                · norm_num
                · simpa using key 0 (by norm_num) (by norm_num)
              · norm_num
            · norm_num

/-- Decomposing membership in a `zipWith`. -/
theorem mem_zipWith {α β γ : Type} (f : α → β → γ) (as : List α) (bs : List β)
    (c : γ) (h : c ∈ List.zipWith f as bs) :
    ∃ a b, a ∈ as ∧ b ∈ bs ∧ c = f a b := by
  induction as generalizing bs with
  | nil => simp at h
  | cons a as' ih =>
      cases bs with
      | nil => simp at h
      | cons b bs' =>
          rw [List.zipWith_cons_cons] at h
          rcases List.mem_cons.mp h with hh | hh
          · exact ⟨a, b, by simp, by simp, hh⟩
          · obtain ⟨a', b', ha', hb', rfl⟩ := ih bs' hh
            exact ⟨a', b', by simp [ha'], by simp [hb'], rfl⟩

/-- Entrywise addition preserves nonnegativity. -/
theorem matAdd_nonneg (a b : List (List ℚ)) (ha : Audio.MatNonneg a)
    (hb : Audio.MatNonneg b) : Audio.MatNonneg (Audio.matAdd a b) := by
  intro row hrow x hx
  obtain ⟨ra, rb, hra, hrb, rfl⟩ := mem_zipWith _ _ _ _ hrow
  obtain ⟨xa, xb, hxa, hxb, rfl⟩ := mem_zipWith _ _ _ _ hx
  exact add_nonneg (ha ra hra xa hxa) (hb rb hrb xb hxb)

/-- Folded addition preserves nonnegativity. -/
theorem foldl_matAdd_nonneg (ms : List (List (List ℚ))) (acc : List (List ℚ))
    (hacc : Audio.MatNonneg acc) (hms : ∀ M ∈ ms, Audio.MatNonneg M) :
    Audio.MatNonneg (ms.foldl Audio.matAdd acc) := by
  induction ms generalizing acc with
  | nil => exact hacc
  | cons M ms' ih =>
      rw [List.foldl_cons]
      exact ih _ (matAdd_nonneg acc M hacc (hms M (by simp)))
        (fun N hN => hms N (by simp [hN]))

/-- Nonnegative scaling preserves nonnegativity. -/
theorem matScale_nonneg (c : ℚ) (m : List (List ℚ)) (hc : 0 ≤ c)
    (hm : Audio.MatNonneg m) : Audio.MatNonneg (Audio.matScale c m) := by
  intro row hrow x hx
  obtain ⟨row0, hrow0, rfl⟩ := List.mem_map.mp hrow
  obtain ⟨x0, hx0, rfl⟩ := List.mem_map.mp hx
  exact mul_nonneg hc (hm row0 hrow0 x0 hx0)

/-- The elementwise history mean is nonnegative. -/
theorem matMean_nonneg (ms : List (List (List ℚ)))
    (h : ∀ M ∈ ms, Audio.MatNonneg M) : Audio.MatNonneg (Audio.matMean ms) := by
  cases ms with
  | nil => intro row hrow; simp [Audio.matMean] at hrow
  | cons M rest =>
      unfold Audio.matMean
      apply matScale_nonneg
      · positivity
      · exact foldl_matAdd_nonneg rest M (h M (by simp))
          (fun N hN => h N (by simp [hN]))

/-- Every chord-template weight is nonnegative. -/
theorem chord_templates_nonneg :
    ∀ nt ∈ Audio.chord_templates, ∀ v ∈ nt.2, 0 ≤ v := by
  intro nt hnt v hv
  simp only [Audio.chord_templates, List.mem_append, List.mem_map] at hnt
  rcases hnt with ⟨i, hi, rfl⟩ | ⟨i, hi, rfl⟩ <;>
  · simp only [Audio.mkTemplate, List.mem_map] at hv
    obtain ⟨j, hj, rfl⟩ := hv
    split_ifs <;> norm_num

/-- Correlations of nonnegative templates with nonnegative chroma are
nonnegative. -/
theorem corrScore_nonneg (tmpl : List ℚ) (m : List (List ℚ))
    (ht : ∀ v ∈ tmpl, 0 ≤ v) (hm : Audio.MatNonneg m) :
    0 ≤ Audio.corrScore tmpl m := by
  unfold Audio.corrScore
  apply div_nonneg
  · apply List.sum_nonneg
    intro z hz
    obtain ⟨t, row, htm, hrm, rfl⟩ := mem_zipWith _ _ _ _ hz
    exact mul_nonneg (ht t htm) (List.sum_nonneg (hm row hrm))
  · exact Nat.cast_nonneg _

/-- All 24 chord scores are nonnegative on nonnegative chroma. -/
theorem chordScores_nonneg (m : List (List ℚ)) (hm : Audio.MatNonneg m) :
    ∀ p ∈ Audio.chordScores m, 0 ≤ p.2 := by
  intro p hp
  simp only [Audio.chordScores, List.mem_map] at hp
  obtain ⟨nt, hnt, rfl⟩ := hp
  exact corrScore_nonneg _ _ (chord_templates_nonneg nt hnt) hm

/-- Stable descending insertion is a permutation. -/
theorem insertScore_perm (a : String × ℚ) (l : List (String × ℚ)) :
    (Audio.insertScore a l).Perm (a :: l) := by
  induction l with
  | nil => rfl
  | cons b t ih =>
      rw [Audio.insertScore]
      split
      · rfl
      · exact (ih.cons b).trans (List.Perm.swap a b t)

/-- The descending sort is a permutation of its input. -/
theorem sortScoresDesc_perm (l : List (String × ℚ)) :
    (Audio.sortScoresDesc l).Perm l := by
  induction l with
  | nil => rfl
  | cons a t ih =>
      rw [Audio.sortScoresDesc]
      exact (insertScore_perm a (Audio.sortScoresDesc t)).trans (ih.cons a)

/-- Insertion preserves descending sortedness. -/
theorem insertScore_sorted (a : String × ℚ) (l : List (String × ℚ))
    (h : l.Pairwise (fun x y => y.2 ≤ x.2)) :
    (Audio.insertScore a l).Pairwise (fun x y => y.2 ≤ x.2) := by
  induction l with
  | nil => simp [Audio.insertScore]
  | cons b t ih =>
      obtain ⟨hb, ht⟩ := List.pairwise_cons.mp h
      rw [Audio.insertScore]
      split
      · refine List.pairwise_cons.mpr ⟨?_, h⟩
        intro y hy
        rcases List.mem_cons.mp hy with hh | hh
        · subst hh
          assumption
        · exact le_trans (hb y hh) (by assumption)
      · refine List.pairwise_cons.mpr ⟨?_, ih ht⟩
        intro y hy
        have hmem : y ∈ a :: t := (insertScore_perm a t).subset hy
        rcases List.mem_cons.mp hmem with hh | hh
        · subst hh
          have : ¬ b.2 ≤ y.2 := by assumption
          exact le_of_lt (not_le.mp this)
        · exact hb y hh

/-- The sort output is descending. -/
theorem sortScoresDesc_sorted (l : List (String × ℚ)) :
    (Audio.sortScoresDesc l).Pairwise (fun x y => y.2 ≤ x.2) := by
  induction l with
  | nil => simp [Audio.sortScoresDesc]
  | cons a t ih =>
      rw [Audio.sortScoresDesc]
      exact insertScore_sorted a _ ih

/-- The confidence formula on a descending nonnegative `top_chords` list
stays in `[0,1]`. -/
theorem chordsConf_bounds (tc : List (String × ℚ))
    (hs : tc.Pairwise (fun x y => y.2 ≤ x.2)) (h0 : ∀ p ∈ tc, 0 ≤ p.2) :
    0 ≤ Audio.chordsConf tc ∧ Audio.chordsConf tc ≤ 1 := by
  match tc with
  | [] => exact ⟨le_refl 0, by norm_num [Audio.chordsConf]⟩
  | [p0] => exact ⟨by norm_num [Audio.chordsConf], by norm_num [Audio.chordsConf]⟩
  | p0 :: p1 :: rest =>
      have hred : Audio.chordsConf (p0 :: p1 :: rest)
          = if 0 < p0.2 then (p0.2 - p1.2) / p0.2 else 0 := rfl
      rw [hred]
      by_cases hp : 0 < p0.2
      · rw [if_pos hp]
        have h10 : p1.2 ≤ p0.2 :=
          (List.pairwise_cons.mp hs).1 p1 (List.mem_cons_self p1 rest)
        have h1n : 0 ≤ p1.2 := h0 p1 (by simp)
        constructor
        · exact div_nonneg (by linarith) hp.le
        · rw [div_le_one hp]
          linarith
      · rw [if_neg hp]
        norm_num

/-- The confidence computed by the chroma pipeline lies in `[0,1]` for
nonnegative history matrices. -/
theorem chordsOfHistory_conf_bound (hist : List (List (List ℚ)))
    (hn : ∀ M ∈ hist, Audio.MatNonneg M) :
    0 ≤ (Audio.chordsOfHistory hist).confidence ∧
      (Audio.chordsOfHistory hist).confidence ≤ 1 := by
  unfold Audio.chordsOfHistory
  dsimp only
  have havg := matMean_nonneg hist hn
  set avg := Audio.matMean hist
  set avgn := (if 0 < Audio.matMax avg
               then Audio.matScale (1 / Audio.matMax avg) avg else avg) with havgn_def
  have havgn : Audio.MatNonneg avgn := by
    rw [havgn_def]
    split
    · rename_i hmax
      exact matScale_nonneg _ _ (div_nonneg (by norm_num) hmax.le) havg
    · exact havg
  have htake : (Audio.topChords avgn).Pairwise (fun x y => y.2 ≤ x.2) := by
    unfold Audio.topChords
    exact List.Pairwise.sublist (List.take_sublist 3 _) (sortScoresDesc_sorted _)
  have hmem0 : ∀ p ∈ Audio.topChords avgn, 0 ≤ p.2 := by
    intro p hp
    exact chordScores_nonneg avgn havgn p
      ((sortScoresDesc_perm _).subset (List.mem_of_mem_take hp))
  exact chordsConf_bounds _ htake hmem0

/-- The confidence reported by `_extract_chords` lies in `[0,1]`, given
nonnegative chroma from the library and in the history. -/
theorem extract_chords_conf_bound (ext : Audio.Ext) (hop : ℕ)
    (st : Audio.AnalyzerState) (frame : List ℚ)
    (H4 : ∀ l M, ext.chroma_cqt l = Except.ok M → Audio.MatNonneg M)
    (H5 : ∀ M ∈ st.chroma_history, Audio.MatNonneg M) :
    0 ≤ (Audio.extract_chords ext hop st frame).1.confidence ∧
      (Audio.extract_chords ext hop st frame).1.confidence ≤ 1 := by
  unfold Audio.extract_chords
  dsimp only
  split
  · norm_num
  · rcases hc : ext.chroma_cqt frame with e | chroma
    · simp only [hc]
      norm_num
    · simp only [hc]
      apply chordsOfHistory_conf_bound
      intro M hM
      rcases pushMax_mem 3 _ _ M hM with hmem | heq
      · exact H5 M hmem
      · rw [heq]
        exact H4 frame chroma hc

/-- Dynamics bounds: `value ∈ [0,1]` and `peak ≥ 0` (the source does not
clamp the peak). -/
theorem extract_dynamics_bounds (ext : Audio.Ext) (frame : List ℚ)
    (H6 : ∀ x, 0 ≤ x → 0 ≤ ext.sqrtQ x) :
    0 ≤ (Audio.extract_dynamics ext frame).value ∧
      (Audio.extract_dynamics ext frame).value ≤ 1 ∧
      0 ≤ (Audio.extract_dynamics ext frame).peak := by
  unfold Audio.extract_dynamics
  split
  · norm_num
  · rename_i hlen
    dsimp only
    have hne : frame ≠ [] := by
      intro hcon
      exact hlen (by simp [hcon])
    have hrms : 0 ≤ ext.sqrtQ (Audio.meanQ (frame.map fun x => x * x)) := by
      apply H6
      apply div_nonneg
      · apply List.sum_nonneg
        intro z hz
        obtain ⟨w, hw, rfl⟩ := List.mem_map.mp hz
        exact mul_self_nonneg w
      · exact Nat.cast_nonneg _
    refine ⟨?_, min_le_left _ _, ?_⟩
    · exact le_min (by norm_num) (mul_nonneg hrms (by norm_num))
    · obtain ⟨hm, -⟩ := maxQ_spec (frame.map fun x => |x|) (by simpa using hne)
      obtain ⟨w, hw, hwe⟩ := List.mem_map.mp hm
      rw [← hwe]
      positivity

/-- C7 (amended): for every nonempty frame, every analyzer state whose
recorded pitch confidences are in `[0,1]` and recorded chroma is
nonnegative, and every library behaviour with nonnegative tempo
distributions, nonnegative chroma and nonnegative square roots, the
snapshot's tempo/pitch/chord confidences lie in `[0,1]` and the dynamics
`value` lies in `[0,1]` — but the dynamics `peak` is only nonnegative:
it is the raw maximum absolute sample of the pre-emphasized frame and is
not clamped to 1. -/
theorem C7_amended (ext : Audio.Ext) (hop : ℕ) (st : Audio.AnalyzerState)
    (frame : List ℚ)
    (H1 : frame ≠ [])
    (H2 : ∀ l dist, ext.tempo_dist l = Except.ok dist → ∀ x ∈ dist, 0 ≤ x)
    (H3 : ∀ y ∈ st.pitch_confidence_history, 0 ≤ y ∧ y ≤ 1)
    (H4 : ∀ l M, ext.chroma_cqt l = Except.ok M → Audio.MatNonneg M)
    (H5 : ∀ M ∈ st.chroma_history, Audio.MatNonneg M)
    (H6 : ∀ x, 0 ≤ x → 0 ≤ ext.sqrtQ x) :
    ∃ snap st', Audio.analyze_frame ext hop st frame = Except.ok (snap, st') ∧
      (0 ≤ snap.tempo.confidence ∧ snap.tempo.confidence ≤ 1) ∧
      (0 ≤ snap.pitch.confidence ∧ snap.pitch.confidence ≤ 1) ∧
      (0 ≤ snap.chords.confidence ∧ snap.chords.confidence ≤ 1) ∧
      (0 ≤ snap.dynamics.value ∧ snap.dynamics.value ≤ 1) ∧
      0 ≤ snap.dynamics.peak := by
  obtain ⟨x, xs, rfl⟩ := List.exists_cons_of_ne_nil H1
  have hpre : Audio.apply_pre_emphasis (97/100) (x :: xs) =
      Except.ok (x :: List.zipWith (fun a b => a - (97/100) * b) xs (x :: xs)) := rfl
  unfold Audio.analyze_frame
  rw [hpre]
  refine ⟨_, _, rfl, ?_, ?_, ?_, ?_, ?_⟩
  · exact estimate_tempo_conf_bound ext hop _ _ H2
  · exact extract_pitch_conf_bound ext hop st _ H3
  · apply extract_chords_conf_bound ext hop _ _ H4
    rw [extract_pitch_chroma_history]
    exact H5
  · exact ⟨(extract_dynamics_bounds ext _ H6).1,
      (extract_dynamics_bounds ext _ H6).2.1⟩
  · exact (extract_dynamics_bounds ext _ H6).2.2

/-- C7 (witness): the amended theorem applied to a one-sample frame with
the all-failing oracle and the fresh analyzer state. -/
theorem C7_amended_witness :
    ∃ snap st', Audio.analyze_frame Audio.extFail 512 Audio.initAnalyzerState [1]
        = Except.ok (snap, st') ∧
      (0 ≤ snap.tempo.confidence ∧ snap.tempo.confidence ≤ 1) ∧
      (0 ≤ snap.pitch.confidence ∧ snap.pitch.confidence ≤ 1) ∧
      (0 ≤ snap.chords.confidence ∧ snap.chords.confidence ≤ 1) ∧
      (0 ≤ snap.dynamics.value ∧ snap.dynamics.value ≤ 1) ∧
      0 ≤ snap.dynamics.peak :=
  C7_amended Audio.extFail 512 Audio.initAnalyzerState [1]
    (by simp)
    (by intro l dist h; simp [Audio.extFail] at h)
    (by intro y hy; simp [Audio.initAnalyzerState] at hy)
    (by intro l M h; simp [Audio.extFail] at h)
    (by intro M hM; simp [Audio.initAnalyzerState] at hM)
    (by intro x hx; simp [Audio.extFail])

/-- C7 (counterexample): the frame `[1, -1]` (samples within `[-1,1]`)
pre-emphasizes to `[1, -1.97]`, so the returned dynamics `peak` is 1.97 —
outside `[0,1]`, refuting the claimed bound on `peak`. -/
theorem C7_counterexample :
    ∃ snap st', Audio.analyze_frame Audio.extFail 512 Audio.initAnalyzerState [1, -1]
        = Except.ok (snap, st') ∧
      snap.dynamics.peak = 197/100 ∧ ¬ snap.dynamics.peak ≤ 1 := by
  have hpre : Audio.apply_pre_emphasis (97/100) [1, -1] =
      Except.ok [1, -1 - (97/100) * 1] := rfl
  unfold Audio.analyze_frame
  rw [hpre]
  have hpeak : (Audio.extract_dynamics Audio.extFail [1, -1 - (97/100) * 1]).peak
      = 197/100 := by
    have habs : |(-1 - (97/100 : ℚ) * 1)| = 197/100 := by
      rw [abs_of_nonpos (by norm_num)]
      norm_num
    simp only [Audio.extract_dynamics, Audio.maxQ, List.map, abs_one, habs,
      List.length_cons, List.length_nil, List.foldl]
    norm_num [max_def]
  exact ⟨_, _, rfl, hpeak, by rw [hpeak]; norm_num⟩

/-! ### C5: chord ranking and confidence -/

/-- `maxQ` is invariant under permutation. -/
theorem maxQ_perm (l l' : List ℚ) (h : l.Perm l') : Audio.maxQ l = Audio.maxQ l' := by
  cases l with
  | nil =>
      have : l' = [] := h.nil_eq.symm
      rw [this]
  | cons x xs =>
      have hs := maxQ_spec (x :: xs) (by simp)
      exact (maxQ_eq_of_spec l' (Audio.maxQ (x :: xs)) (h.subset hs.1)
        (fun y hy => hs.2 y (h.symm.subset hy))).symm

/-- The first two entries of the descending sort are the largest and
second-largest scores (counting multiplicity). -/
theorem two_largest (l : List (String × ℚ)) (p0 p1 : String × ℚ)
    (rest : List (String × ℚ)) (hsort : Audio.sortScoresDesc l = p0 :: p1 :: rest) :
    p0.2 = Audio.maxQ (l.map Prod.snd) ∧
    p1.2 = Audio.maxQ ((l.map Prod.snd).erase (Audio.maxQ (l.map Prod.snd))) := by
  have hperm : (p0 :: p1 :: rest).Perm l := hsort ▸ sortScoresDesc_perm l
  have hpairs : (p0 :: p1 :: rest).Pairwise (fun x y => y.2 ≤ x.2) :=
    hsort ▸ sortScoresDesc_sorted l
  have hvals : (p0.2 :: p1.2 :: rest.map Prod.snd).Perm (l.map Prod.snd) := by
    simpa using hperm.map Prod.snd
  obtain ⟨hb0, hrest⟩ := List.pairwise_cons.mp hpairs
  obtain ⟨hb1, -⟩ := List.pairwise_cons.mp hrest
  have h0 : Audio.maxQ (p0.2 :: p1.2 :: rest.map Prod.snd) = p0.2 := by
    apply maxQ_eq_of_spec _ _ (by simp)
    intro y hy
    rcases List.mem_cons.mp hy with hh | hh
    · rw [hh]
    · rcases List.mem_cons.mp hh with hh2 | hh2
      · rw [hh2]
        exact hb0 p1 (by simp)
      · obtain ⟨q, hq, rfl⟩ := List.mem_map.mp hh2
        exact hb0 q (by simp [hq])
  have hmax : Audio.maxQ (l.map Prod.snd) = p0.2 := by
    rw [← maxQ_perm _ _ hvals, h0]
  refine ⟨hmax.symm, ?_⟩
  have herase : (p0.2 :: p1.2 :: rest.map Prod.snd).erase p0.2
      = p1.2 :: rest.map Prod.snd := List.erase_cons_head p0.2 _
  have hperm2 : (p1.2 :: rest.map Prod.snd).Perm ((l.map Prod.snd).erase p0.2) := by
    rw [← herase]
    exact hvals.erase p0.2
  have h1 : Audio.maxQ (p1.2 :: rest.map Prod.snd) = p1.2 := by
    apply maxQ_eq_of_spec _ _ (by simp)
    intro y hy
    rcases List.mem_cons.mp hy with hh | hh
    · rw [hh]
    · obtain ⟨q, hq, rfl⟩ := List.mem_map.mp hh
      exact hb1 q hq
  rw [hmax, ← maxQ_perm _ _ hperm2, h1]

/-- There are exactly 24 chord scores. -/
theorem chordScores_length (m : List (List ℚ)) :
    (Audio.chordScores m).length = 24 := by
  simp [Audio.chordScores, Audio.chord_templates]

/-- C5 (amended): the reported chords are at most three, each is a
template whose correlation with the normalized averaged chroma strictly
exceeds the 0.5 threshold, listed in descending correlation order; and
the confidence is always the relative gap `(s₁ - s₂)/s₁` between the two
largest of the 24 correlations when `s₁ > 0`, and `0.0` when `s₁ ≤ 0` —
irrespective of how many templates clear the threshold. -/
theorem C5_amended (hist : List (List (List ℚ))) :
    (Audio.chordsOfHistory hist).chords.length ≤ 3 ∧
    (∃ pairs : List (String × ℚ),
        pairs.map Prod.fst = (Audio.chordsOfHistory hist).chords ∧
        (∀ p ∈ pairs,
          p ∈ Audio.chordScores
              (if 0 < Audio.matMax (Audio.matMean hist)
               then Audio.matScale (1 / Audio.matMax (Audio.matMean hist))
                 (Audio.matMean hist)
               else Audio.matMean hist) ∧ 1/2 < p.2) ∧
        pairs.Pairwise (fun x y => y.2 ≤ x.2)) ∧
    (Audio.chordsOfHistory hist).confidence =
      (let svals :=
        (Audio.chordScores
            (if 0 < Audio.matMax (Audio.matMean hist)
             then Audio.matScale (1 / Audio.matMax (Audio.matMean hist))
               (Audio.matMean hist)
             else Audio.matMean hist)).map Prod.snd
       let s1 := Audio.maxQ svals
       let s2 := Audio.maxQ (svals.erase s1)
       if 0 < s1 then (s1 - s2) / s1 else 0) := by
  unfold Audio.chordsOfHistory
  dsimp only
  set avgn := (if 0 < Audio.matMax (Audio.matMean hist)
               then Audio.matScale (1 / Audio.matMax (Audio.matMean hist))
                 (Audio.matMean hist)
               else Audio.matMean hist) with havgn_def
  have hlen24 : (Audio.sortScoresDesc (Audio.chordScores avgn)).length = 24 := by
    rw [(sortScoresDesc_perm _).length_eq, chordScores_length]
  rcases hs : Audio.sortScoresDesc (Audio.chordScores avgn) with _ | ⟨p0, t⟩
  · rw [hs] at hlen24
    simp at hlen24
  rcases t with _ | ⟨p1, rest⟩
  · rw [hs] at hlen24
    simp at hlen24
  have htop : Audio.topChords avgn = p0 :: p1 :: rest.take 1 := by
    unfold Audio.topChords
    rw [hs]
    rfl
  obtain ⟨h1, h2⟩ := two_largest _ p0 p1 rest hs
  refine ⟨?_, ?_, ?_⟩
  · rw [htop, List.length_map]
    calc ((p0 :: p1 :: rest.take 1).filter (fun p => decide (1/2 < p.2))).length
        ≤ (p0 :: p1 :: rest.take 1).length := List.length_filter_le _ _
    _ ≤ 3 := by
        simp [List.length_take]
  · refine ⟨(Audio.topChords avgn).filter (fun p => decide (1/2 < p.2)), rfl, ?_, ?_⟩
    · intro p hp
      have hmem1 : p ∈ Audio.topChords avgn := List.mem_of_mem_filter hp
      have hmem2 : p ∈ Audio.sortScoresDesc (Audio.chordScores avgn) :=
        List.mem_of_mem_take hmem1
      have hmem3 : p ∈ Audio.chordScores avgn :=
        (sortScoresDesc_perm _).subset hmem2
      have hthr : 1/2 < p.2 := by
        have := List.of_mem_filter hp
        exact of_decide_eq_true this
      exact ⟨hmem3, hthr⟩
    · apply List.Pairwise.filter
      unfold Audio.topChords
      exact List.Pairwise.sublist (List.take_sublist 3 _) (sortScoresDesc_sorted _)
  · rw [htop]
    have hconf : Audio.chordsConf (p0 :: p1 :: rest.take 1)
        = if 0 < p0.2 then (p0.2 - p1.2) / p0.2 else 0 := rfl
    rw [hconf, ← h2, ← h1]

/-- C5 (counterexample): feeding the extractor one frame whose chroma is
`cexChroma` (via an oracle returning it), no template clears the 0.5
threshold — every one of the 24 correlations is at most 2/5 — so the claim
requires confidence 0.0; but the code returns confidence
`(2/5 - 1/3)/(2/5) = 1/6 ≠ 0`, the gap of the two best scores. -/
theorem C5_counterexample :
    (∀ p ∈ Audio.chordScores Audio.cexChroma, ¬ (1/2 : ℚ) < p.2) ∧
    (Audio.extract_chords Audio.cexExt 512 Audio.initAnalyzerState
        (List.replicate 512 0)).1 = ⟨[], 1/6⟩ ∧
    Audio.chordsOfHistory [Audio.cexChroma] = ⟨[], 1/6⟩ ∧ ((1 : ℚ)/6 ≠ 0) := by
  have h_avg : Audio.matMean [Audio.cexChroma] = Audio.cexChroma := by
    norm_num [Audio.matMean, Audio.matScale, Audio.matAdd, Audio.cexChroma]
  have h_max : Audio.matMax Audio.cexChroma = 1 := by
    norm_num [Audio.matMax, Audio.maxQ, Audio.cexChroma, max_def]
  have h_scores : Audio.chordScores Audio.cexChroma =
      [("C", 2/5), ("C#", 0), ("D", 0), ("D#", 0), ("E", 1/12), ("F", 4/15),
       ("F#", 0), ("G", 0), ("G#", 4/15), ("A", 1/15), ("A#", 0), ("B", 0),
       ("Cm", 1/3), ("C#m", 1/15), ("Dm", 0), ("D#m", 0), ("Em", 1/12),
       ("Fm", 4/15), ("F#m", 0), ("Gm", 0), ("G#m", 0), ("Am", 1/3),
       ("A#m", 0), ("Bm", 0)] := by
    norm_num [Audio.chordScores, Audio.chord_templates, Audio.mkTemplate,
      Audio.noteNames, Audio.corrScore, Audio.numCols, Audio.cexChroma,
      List.range_succ]
    decide
  have h_sorted : Audio.sortScoresDesc (Audio.chordScores Audio.cexChroma) =
      [("C", 2/5), ("Cm", 1/3), ("Am", 1/3), ("F", 4/15), ("G#", 4/15),
       ("Fm", 4/15), ("E", 1/12), ("Em", 1/12), ("A", 1/15), ("C#m", 1/15),
       ("C#", 0), ("D", 0), ("D#", 0), ("F#", 0), ("G", 0), ("A#", 0),
       ("B", 0), ("Dm", 0), ("D#m", 0), ("F#m", 0), ("Gm", 0), ("G#m", 0),
       ("A#m", 0), ("Bm", 0)] := by
    rw [h_scores]
    norm_num [Audio.sortScoresDesc, Audio.insertScore]
  have h_top : Audio.topChords Audio.cexChroma =
      [("C", 2/5), ("Cm", 1/3), ("Am", 1/3)] := by
    rw [Audio.topChords, h_sorted]
    rfl
  have h_scale : Audio.matScale (1 / (1 : ℚ)) Audio.cexChroma = Audio.cexChroma := by
    norm_num [Audio.matScale, Audio.cexChroma]
  have h_hist : Audio.chordsOfHistory [Audio.cexChroma] = ⟨[], 1/6⟩ := by
    simp only [Audio.chordsOfHistory]
    rw [h_avg, h_max, if_pos (by norm_num : (0:ℚ) < 1), h_scale, h_top]
    norm_num [Audio.chordsConf]
  refine ⟨?_, ?_, h_hist, by norm_num⟩
  · rw [h_scores]
    intro p hp
    fin_cases hp <;> norm_num
  · have hguard : ¬ (List.replicate 512 (0:ℚ)).length < 512 := by
      rw [List.length_replicate]
      omega
    simp only [Audio.extract_chords, if_neg hguard, Audio.cexExt,
      Audio.initAnalyzerState, Audio.pushMax]
    simpa using h_hist

/-! ### C4: `all_notes_off` clears everything without raising -/

/-- C4 (code-bug evaluation): with an open port and two active notes on
channel 0, `all_notes_off` sends a single note-off (pitch 60), then raises
`RuntimeError` out of the key iterator (the inner dict changed size during
iteration); pitch 64 stays in `active_notes` and the note-off queue is
never cleared — contradicting "one note-off per active note, both
structures empty, no raise". -/
theorem C4_code_bug_eval :
    (Midi.all_notes_off (Midi.process_notes (Midi.mkMidiGenerator true)
        [Midi.noteA, Midi.noteB] 0)).2 = some PyErr.runtimeError ∧
      (Midi.all_notes_off (Midi.process_notes (Midi.mkMidiGenerator true)
        [Midi.noteA, Midi.noteB] 0)).1.active_notes = [(0, [(64, 90)])] ∧
      (Midi.all_notes_off (Midi.process_notes (Midi.mkMidiGenerator true)
        [Midi.noteA, Midi.noteB] 0)).1.note_off_queue.map
          (fun e => (e.note, e.channel)) = [(60, 0), (64, 0)] ∧
      (Midi.all_notes_off (Midi.process_notes (Midi.mkMidiGenerator true)
        [Midi.noteA, Midi.noteB] 0)).1.sent
        = [Midi.MidiMsg.note_on 60 100 0, Midi.MidiMsg.note_on 64 90 0,
           Midi.MidiMsg.note_off 60 0] := by
  decide

end PerformanceSuite
